import Mathlib

/-!
Verification of the fornax-serverless in-memory revision-ordered store
(`pkg/store/inmemory/simple_memory_store.go`).

The Go store is embedded shallowly:
* objects are values carrying the fields the store inspects through the
  external Object capability (resource version, opaque payload, deletion
  timestamp flag, finalizer-emptiness flag);
* the nested KeyTree (`memoryStoreMap`, external to the store file) is
  flattened to an association list keyed by the full key string, which is
  faithful because splitting on the slash separator is injective;
* the package-global revision counter `_MemoryRev` is a field of the store
  state, which is equivalent for a single store instance under sequential
  execution;
* revisions are unsigned 64-bit counters in Go; they start at 2^62 and are
  bumped by one per mutation, so they never approach 2^64 and are modelled
  as plain naturals;
* the continue-token codec is external and opaque except for round-tripping,
  so a token is modelled as its decoded content, a pair of last key and
  revision (the revision is an int64 in Go, hence an Int here);
* watcher fan-out (`sendEvent`) only appends to watcher queues and does not
  affect any property treated here, so it is not modelled.

A second, heap-indexed model at the end of the file makes object aliasing
observable; it is used for the deep-copy boundary properties of Get and
Delete, which are invisible to a value-level model.
-/

namespace FornaxStore

/-- An object as seen through the external Object capability contract:
resource version (decimal-encoded uint64 at the boundary), an opaque
payload standing for all other fields, and the two deletion-related
observations (`deletionTimestampSet`, `finalizersEmpty`). -/
structure Obj where
  rv : Nat
  payload : Nat
  deletionTimestampSet : Bool
  finalizersEmpty : Bool
  deriving DecidableEq, Repr

/-- `objWithIndex`: a RevisionList slot: full key at creation, the stored
deep-copied object snapshot, and the slot's own position. -/
structure ObjWithIndex where
  key : String
  obj : Obj
  index : Nat
  deriving DecidableEq, Repr

/-- The store state: the `_MemoryRev` counter, the KeyTree (flattened), and
the revision-ordered slot list `kvList`. -/
structure MemoryStore where
  memoryRev : Nat
  kvs : List (String × ObjWithIndex)
  kvList : List (Option ObjWithIndex)
  deriving DecidableEq, Repr

/-- The error taxonomy surfaced by the store (kinds, not Go types). -/
inductive Err where
  | keyExists (key : String)
  | keyNotFound (key : String)
  | badRequest (msg : String)
  | tooLargeResourceVersion (minRV actual : Nat)
  | preconditionFailed (key : String)
  | conflictErr (key : String)
  | mergeUnsupported
  | internalErr (msg : String)
  deriving DecidableEq, Repr

deriving instance DecidableEq for Except

/-- Modelled from the spec: `Preconditions` carry an optional resource
version to compare against the current object (the UID component is an
independent second optional field of the same shape and is omitted). -/
structure Precond where
  resourceVersion : Option Nat
  deriving DecidableEq, Repr

/-- Modelled from the spec: `Preconditions.Check` fails with
PreconditionFailed when a supplied resource version differs from the
current object's. -/
def precondCheck (pre : Option Precond) (key : String) (o : Obj) : Except Err Unit :=
  match pre with
  | none => .ok ()
  | some p =>
    match p.resourceVersion with
    | none => .ok ()
    | some v => if o.rv = v then .ok () else .error (.preconditionFailed key)

/-- `strings.HasPrefix(s, pre)` on the character lists of the strings. -/
def hasPref (s pre : String) : Bool := pre.data.isPrefixOf s.data

/-- `strings.HasSuffix(key, "/")`. -/
def endsWithSlash (s : String) : Bool := s.data.getLast? == some '/'

/-- Modelled from the spec: the resource-version wire format is an unsigned
64-bit integer, decimal-encoded as a string; parsing fails on anything
else. (`store.ParseResourceVersion` is outside the store file; every call
site in the store guards the empty string itself.) -/
def parseDecimal (s : String) : Option Nat :=
  if s.data ≠ [] ∧ s.data.all Char.isDigit then
    some (s.data.foldl (fun n c => n * 10 + (c.toNat - 48)) 0)
  else none

/-- `store.ParseResourceVersion`, modelled from the spec (see
`parseDecimal`). -/
def parseResourceVersion (s : String) : Option Nat := parseDecimal s

/-- `validateMinimumResourceVersion`: empty string means no minimum; a
minimum above the actual revision is TooLargeResourceVersion. -/
def validateMinimumResourceVersion (minimumResourceVersion : String) (actualRevision : Nat) :
    Except Err Unit :=
  if minimumResourceVersion = "" then .ok ()
  else
    match parseResourceVersion minimumResourceVersion with
    | none => .error (.badRequest "invalid resource version")
    | some minimumRV =>
      if minimumRV > actualRevision then .error (.tooLargeResourceVersion minimumRV actualRevision)
      else .ok ()

/-- Modelled from the spec: `memoryStoreMap.get` on the flattened KeyTree. -/
def mapGet (kvs : List (String × ObjWithIndex)) (key : String) : Option ObjWithIndex :=
  match kvs.find? (fun p => p.1 == key) with
  | some p => some p.2
  | none => none

/-- Replace the entry at `key` (helper for `mapPut`). -/
def replaceEntry (kvs : List (String × ObjWithIndex)) (key : String) (wi : ObjWithIndex) :
    List (String × ObjWithIndex) :=
  kvs.map (fun p => if p.1 == key then (key, wi) else p)

/-- Modelled from the spec: `memoryStoreMap.put` with the optimistic
concurrency check: when `expectedPrevRev ≠ 0` the current entry's revision
must equal it; `expectedPrevRev = 0` inserts or overwrites (the store file
itself guards the Create path by an existence check before calling put, so
the overwrite branch carries the Replace-path semantics). -/
def mapPut (kvs : List (String × ObjWithIndex)) (key : String) (wi : ObjWithIndex)
    (expectedPrevRev : Nat) : Except Err (List (String × ObjWithIndex)) :=
  match mapGet kvs key with
  | none =>
    if expectedPrevRev = 0 then .ok ((key, wi) :: kvs) else .error (.conflictErr key)
  | some cur =>
    if expectedPrevRev = 0 then .ok (replaceEntry kvs key wi)
    else if cur.obj.rv = expectedPrevRev then .ok (replaceEntry kvs key wi)
    else .error (.conflictErr key)

/-- Modelled from the spec: `memoryStoreMap.del` removes the key. -/
def mapDel (kvs : List (String × ObjWithIndex)) (key : String) : List (String × ObjWithIndex) :=
  kvs.filter (fun p => p.1 != key)

/-- `runtime.SetZeroValue(out)`: the zero value of an object (zero
revision, zero payload, nil deletion timestamp, nil — hence empty —
finalizer slice). -/
def zeroObj : Obj := { rv := 0, payload := 0, deletionTimestampSet := false, finalizersEmpty := true }

/-- Modelled from the spec: `store.PrepareObjectForStorage` clears the
incoming object's resource version before the store stamps its own. -/
def prepareObjectForStorage (o : Obj) : Obj := { o with rv := 0 }

/-- `store.UpdateObjectResourceVersion`: stamp a revision into the object. -/
def updateObjectResourceVersion (o : Obj) (rev : Nat) : Obj := { o with rv := rev }

/-- `reserveRevAndSlot`: under one critical section, bump `_MemoryRev` and
append a nil slot, returning the new revision and the reserved index. -/
def reserveRevAndSlot (s : MemoryStore) : Nat × Nat × MemoryStore :=
  (s.memoryRev + 1, s.kvList.length,
    { s with memoryRev := s.memoryRev + 1, kvList := s.kvList ++ [none] })

/-- The loop of Go's `sort.Search`: binary search for the least index in
`[i, j)` where `f` is true, assuming `f` is false-then-true. -/
def sortSearchLoop (f : Nat → Bool) (i j : Nat) : Nat :=
  if h : i < j then
    let m := (i + j) / 2
    if f m then sortSearchLoop f i m else sortSearchLoop f (m + 1) j
  else i
termination_by j - i
decreasing_by
  · have : i ≤ (i + j) / 2 := Nat.le_div_iff_mul_le (by omega) |>.2 (by omega)
    have : (i + j) / 2 < j := Nat.div_lt_iff_lt_mul (by omega) |>.2 (by omega)
    omega
  · have : i ≤ (i + j) / 2 := Nat.le_div_iff_mul_le (by omega) |>.2 (by omega)
    omega

/-- The search predicate `binarySearchInObjList` passes to `sort.Search`:
the slot at `i % len` is non-nil and its object revision is at least `rv`
(`objRV >= rv`); a nil slot yields false. -/
def objListSearchPred (l : List (Option ObjWithIndex)) (rv : Nat) (i : Nat) : Bool :=
  match l.get? (i % l.length) with
  | some (some o) => rv ≤ o.obj.rv
  | _ => false

/-- `binarySearchInObjList`: `sort.Search` over the whole slot list with
`objListSearchPred`. -/
def binarySearchInObjList (l : List (Option ObjWithIndex)) (rv : Nat) : Nat :=
  sortSearchLoop (objListSearchPred l rv) 0 l.length

/-! ## Store operations (write path)

Each operation returns the post state together with what the Go function
writes into its `out` pointer and, where one is computed, the revision the
operation assigned.  Error results leave no trace of the state, which is
faithful because on every error path reachable under sequential execution
the Go code returns before mutating the store. -/

/-- `Create`: requires the key to be absent; allocates (rev, slot); stamps
the revision; stores a deep copy; writes the stamped object into `out`. -/
def create (s : MemoryStore) (key : String) (obj : Obj) :
    Except Err (MemoryStore × Obj × Nat) :=
  let obj0 := prepareObjectForStorage obj
  match mapGet s.kvs key with
  | some _ => .error (.keyExists key)
  | none =>
    let (rev, index, s1) := reserveRevAndSlot s
    let obj1 := updateObjectResourceVersion obj0 rev
    let objWi : ObjWithIndex := { key := key, obj := obj1, index := index }
    match mapPut s1.kvs key objWi 0 with
    | .error e => .error e
    | .ok kvs1 =>
      .ok ({ s1 with kvs := kvs1, kvList := s1.kvList.set index (some objWi) }, obj1, rev)

/-- `Delete`: requires the key; checks preconditions and the deletion
validator against a deep copy of the current object; bumps `_MemoryRev`
purely to order the deletion; removes the key and clears the slot.  The
Go function assigns the pre-image only to its local `out` parameter, so
nothing is written through to the caller (see the heap model below). -/
def deleteOp (s : MemoryStore) (key : String) (pre : Option Precond)
    (validateDeletion : Obj → Except Err Unit) : Except Err (MemoryStore × Nat) :=
  match mapGet s.kvs key with
  | none => .error (.keyNotFound key)
  | some existingObj =>
    match precondCheck pre key existingObj.obj with
    | .error e => .error e
    | .ok _ =>
      match validateDeletion existingObj.obj with
      | .error e => .error e
      | .ok _ =>
        let rev := s.memoryRev + 1
        .ok ({ memoryRev := rev, kvs := mapDel s.kvs key,
               kvList := s.kvList.set existingObj.index none }, rev)

/-- `GetOptions`. -/
structure GetOptions where
  ignoreNotFound : Bool
  resourceVersion : String
  deriving DecidableEq, Repr

/-- `Get`: absent key is KeyNotFound unless `ignoreNotFound` zero-fills
`out`; otherwise enforce the resource version as a minimum and return the
current object.  (The Go code writes the raw stored struct into `out`
rather than the deep copy it makes — the value returned here is the same
either way; the aliasing consequence is treated in the heap model.) -/
def get (s : MemoryStore) (key : String) (opts : GetOptions) : Except Err Obj :=
  match mapGet s.kvs key with
  | none => if opts.ignoreNotFound then .ok zeroObj else .error (.keyNotFound key)
  | some existingObj =>
    match validateMinimumResourceVersion opts.resourceVersion existingObj.obj.rv with
    | .error e => .error e
    | .ok _ => .ok existingObj.obj

/-- `GuaranteedUpdate`: read current, check preconditions, run the mutator
on a deep copy, allocate (rev, slot), store the stamped result, clear the
old slot.  Returns the assigned revision when the update branch ran and
`none` when an absent key was ignored.  (The `cachedExistingObject`
argument only produces a log warning and is omitted.) -/
def guaranteedUpdate (s : MemoryStore) (key : String) (ignoreNotFound : Bool)
    (pre : Option Precond) (tryUpdate : Obj → Except Err Obj) :
    Except Err (MemoryStore × Obj × Option Nat) :=
  match mapGet s.kvs key with
  | none =>
    if ignoreNotFound then .ok (s, zeroObj, none) else .error (.keyNotFound key)
  | some curObjWi =>
    let currRv := curObjWi.obj.rv
    match precondCheck pre key curObjWi.obj with
    | .error e => .error e
    | .ok _ =>
      match tryUpdate curObjWi.obj with
      | .error e => .error e
      | .ok ret =>
        let (rev, index, s1) := reserveRevAndSlot s
        let ret1 := updateObjectResourceVersion ret rev
        let newObjWi : ObjWithIndex := { key := key, obj := ret1, index := index }
        match mapPut s1.kvs key newObjWi currRv with
        | .error e => .error e
        | .ok kvs1 =>
          .ok ({ s1 with
                  kvs := kvs1
                  kvList := (s1.kvList.set curObjWi.index none).set index (some newObjWi) },
               ret1, some rev)

/-- `CreateOrUpdate`: create when absent; otherwise merge the existing
object into the passed one with the caller-provided merge function (whose
absence is an error), then store at a fresh revision. -/
def createOrUpdate (s : MemoryStore) (key : String) (obj : Obj)
    (mergeFunc : Option (Obj → Obj → Except Err Obj)) :
    Except Err (MemoryStore × Obj × Nat) :=
  match mapGet s.kvs key with
  | none =>
    let (rev, index, s1) := reserveRevAndSlot s
    let newObj := updateObjectResourceVersion obj rev
    let objWi : ObjWithIndex := { key := key, obj := newObj, index := index }
    match mapPut s1.kvs key objWi 0 with
    | .error e => .error e
    | .ok kvs1 =>
      .ok ({ s1 with kvs := kvs1, kvList := s1.kvList.set index (some objWi) }, newObj, rev)
  | some curObjWi =>
    let currRv := curObjWi.obj.rv
    match mergeFunc with
    | none => .error .mergeUnsupported
    | some merge =>
      match merge curObjWi.obj obj with
      | .error e => .error e
      | .ok merged =>
        let (rev, index, s1) := reserveRevAndSlot s
        let newObj := updateObjectResourceVersion merged rev
        let newObjWi : ObjWithIndex := { key := key, obj := newObj, index := index }
        match mapPut s1.kvs key newObjWi currRv with
        | .error e => .error e
        | .ok kvs1 =>
          .ok ({ s1 with
                  kvs := kvs1
                  kvList := (s1.kvList.set curObjWi.index none).set index (some newObjWi) },
               newObj, rev)

/-- `GetOrCreate`: return the current object when present (no mutation);
otherwise create the passed object at a fresh revision. -/
def getOrCreate (s : MemoryStore) (key : String) (objToCreate : Obj) :
    Except Err (MemoryStore × Obj × Option Nat) :=
  match mapGet s.kvs key with
  | none =>
    let (rev, index, s1) := reserveRevAndSlot s
    let newObj := updateObjectResourceVersion objToCreate rev
    let objWi : ObjWithIndex := { key := key, obj := newObj, index := index }
    match mapPut s1.kvs key objWi 0 with
    | .error e => .error e
    | .ok kvs1 =>
      .ok ({ s1 with kvs := kvs1, kvList := s1.kvList.set index (some objWi) },
           newObj, some rev)
  | some curObjWi => .ok (s, curObjWi.obj, none)

/-- `CreateOrReplace`: allocate a revision and slot unconditionally, then
insert when absent or overwrite (clearing the old slot) when present. -/
def createOrReplace (s : MemoryStore) (key : String) (objToCreate : Obj) :
    Except Err (MemoryStore × Obj × Nat) :=
  let (rev, index, s1) := reserveRevAndSlot s
  let newObj := updateObjectResourceVersion objToCreate rev
  let newObjWi : ObjWithIndex := { key := key, obj := newObj, index := index }
  match mapGet s.kvs key with
  | none =>
    match mapPut s1.kvs key newObjWi 0 with
    | .error e => .error e
    | .ok kvs1 =>
      .ok ({ s1 with kvs := kvs1, kvList := s1.kvList.set index (some newObjWi) }, newObj, rev)
  | some curObjWi =>
    let currRv := curObjWi.obj.rv
    match mapPut s1.kvs key newObjWi currRv with
    | .error e => .error e
    | .ok kvs1 =>
      .ok ({ s1 with
              kvs := kvs1
              kvList := (s1.kvList.set curObjWi.index none).set index (some newObjWi) },
           newObj, rev)

/-- Modelled from the spec: `store.GetTryUpdateFunc(updatedObj)` is the
mutator GuaranteedUpdate runs; it yields the caller's updated object. -/
def mkTryUpdate (updatedObj : Obj) : Obj → Except Err Obj := fun _ => .ok updatedObj

/-- Modelled from the spec: `store.ShouldDeleteSpec` — deletion timestamp
set and finalizer list empty. -/
def shouldDeleteSpec (o : Obj) : Bool := o.deletionTimestampSet && o.finalizersEmpty

/-- `EnsureUpdateAndDelete`: run GuaranteedUpdate; when the updated object
signals deletion, run Delete with the same preconditions and a trivial
validator.  The Delete result is assigned to the local error variable but
the function returns nil regardless. -/
def ensureUpdateAndDelete (s : MemoryStore) (key : String) (ignoreNotFound : Bool)
    (pre : Option Precond) (updatedObj : Obj) : Except Err (MemoryStore × Obj) :=
  match guaranteedUpdate s key ignoreNotFound pre (mkTryUpdate updatedObj) with
  | .error e => .error e
  | .ok (s1, output, _) =>
    if shouldDeleteSpec output then
      match deleteOp s1 key pre (fun _ => .ok ()) with
      | .ok (s2, _) => .ok (s2, output)
      | .error _ => .ok (s1, output)
    else .ok (s1, output)

/-! ## List read path -/

/-- Match modes for a supplied resource version (`""` is its own case the
way the Go switch treats it). -/
inductive MatchMode where
  | notOlderThan
  | exactMatch
  | unspecified
  deriving DecidableEq, Repr

/-- The caller-supplied predicate: a per-page limit (int64), the continue
token (modelled by its decoded content: last key and int64 revision, the
codec being external and opaque except for round-tripping), the `Empty`
observation and the `Matches` filter. -/
structure Predicate where
  limit : Int
  continueTok : Option (String × Int)
  empty : Bool
  matchesObj : Obj → Bool

/-- `ListOptions` as GetList consumes them. -/
structure ListOptions where
  recursive : Bool
  resourceVersion : String
  matchMode : MatchMode
  pred : Predicate

/-- What `store.UpdateList` leaves in the list object: items, list-level
revision, continue token (its decoded content) and remaining-item count. -/
structure ListRes where
  items : List Obj
  rv : Nat
  continueTok : Option (String × Int)
  remaining : Option Int
  deriving DecidableEq, Repr

/-- Modelled from the spec: `store.AppendListItem` emits the object through
the predicate's `Matches` filter. -/
def appendListItem (items : List Obj) (o : Obj) (pred : Predicate) : List Obj :=
  if pred.matchesObj o then items ++ [o] else items

/-- The inclusion rule of the recursive list walk for each match mode
(`NotOlderThan`: `rv >= withRV`; `Exact` and unspecified: `rv > withRV`). -/
def listIncludeB (mm : MatchMode) (withRV rv : Nat) : Bool :=
  match mm with
  | .notOlderThan => withRV ≤ rv
  | .exactMatch => withRV < rv
  | .unspecified => withRV < rv

/-- The inclusion rule of the single-key path `getSingleObjectAsList` for
each match mode (`NotOlderThan`: `rv >= fromRV`; `Exact`: `rv == fromRV`;
unspecified: `rv > fromRV`). -/
def singleIncludeB (mm : MatchMode) (fromRV rv : Nat) : Bool :=
  match mm with
  | .notOlderThan => fromRV ≤ rv
  | .exactMatch => rv == fromRV
  | .unspecified => fromRV < rv

/-- Following the spec's words for the non-recursive mode: a single key
resolved as a one-element list with the same filter/revision rules as the
recursive walk. -/
def singleIncludeSpec (mm : MatchMode) (fromRV rv : Nat) : Bool :=
  listIncludeB mm fromRV rv

/-- Outcome of the walk over the revision-ordered list (the loop of
`GetList` lines 375–410): collected items, the `lastKey`/`lastRev`
trackers, `remainingItemCount` and `hasMore`. -/
structure WalkOut where
  items : List Obj
  lastKey : String
  lastRev : Nat
  remaining : Int
  hasMore : Bool
  deriving Repr

/-- The switch of the walk body (GetList lines 384–400) for a slot whose
key has the prefix: append the object through the predicate when the match
rule admits its revision. -/
def stepItems (mm : MatchMode) (withRV : Nat) (pred : Predicate) (items : List Obj)
    (v : ObjWithIndex) : List Obj :=
  if listIncludeB mm withRV v.obj.rv then appendListItem items v.obj pred else items

/-- The `for` loop of recursive `GetList` (lines 375–410): walk from slot
`i`, tracking `lastKey`/`lastRev` for every non-nil slot visited (before
the prefix check); stop when `limit` items have been collected, noting
whether slots remain.  A prefix mismatch `continue`s, skipping the limit
check of that iteration. -/
def walkFrom (l : List (Option ObjWithIndex)) (keyPref : String) (mm : MatchMode)
    (withRV : Nat) (pred : Predicate) (limit : Int) (i : Nat)
    (items : List Obj) (lastKey : String) (lastRev : Nat) : WalkOut :=
  if h : i < l.length then
    match l[i] with
    | none =>
      if (items.length : Int) = limit then
        if i < l.length - 1 then
          ⟨items, lastKey, lastRev, (l.length : Int) - 1 - i, true⟩
        else ⟨items, lastKey, lastRev, 0, false⟩
      else walkFrom l keyPref mm withRV pred limit (i + 1) items lastKey lastRev
    | some v =>
      if hasPref v.key keyPref then
        if ((stepItems mm withRV pred items v).length : Int) = limit then
          if i < l.length - 1 then
            ⟨stepItems mm withRV pred items v, v.key, v.obj.rv, (l.length : Int) - 1 - i, true⟩
          else ⟨stepItems mm withRV pred items v, v.key, v.obj.rv, 0, false⟩
        else walkFrom l keyPref mm withRV pred limit (i + 1) (stepItems mm withRV pred items v)
          v.key v.obj.rv
      else walkFrom l keyPref mm withRV pred limit (i + 1) items v.key v.obj.rv
  else ⟨items, lastKey, lastRev, 0, false⟩
termination_by l.length - i

/-- `math.MaxInt64`, the limit used when the predicate has none. -/
def maxInt64 : Int := 2 ^ 63 - 1

/-- The effective limit: `pred.limit` when positive, else `math.MaxInt64`
(GetList lines 366–369). -/
def effLimit (pred : Predicate) : Int := if pred.limit > 0 then pred.limit else maxInt64

/-- Page assembly after the walk (GetList lines 412–425): token and
remaining count only when slots remain; the count only for an empty
predicate. -/
def pageOf (w : WalkOut) (returnedRV : Nat) (pred : Predicate) : ListRes :=
  if w.hasMore then
    if pred.empty then
      ⟨w.items, returnedRV, some (w.lastKey, (w.lastRev : Int)), some w.remaining⟩
    else ⟨w.items, returnedRV, some (w.lastKey, (w.lastRev : Int)), none⟩
  else ⟨w.items, returnedRV, none, none⟩

/-- `GetList` lines 360–425: from a resolved starting index, either return
the empty page (index past the end) or walk the list and assemble the
page. -/
def rangeFromIndex (l : List (Option ObjWithIndex)) (keyPref : String) (mm : MatchMode)
    (pred : Predicate) (withRV returnedRV : Nat) (searchingIndex : Nat) : ListRes :=
  if searchingIndex ≥ l.length then ⟨[], returnedRV, none, none⟩
  else
    pageOf (walkFrom l keyPref mm withRV pred (effLimit pred) searchingIndex [] "" withRV)
      returnedRV pred

/-- `getSingleObjectAsList` after resource-version parsing: an absent key
is an empty list at the current `_MemoryRev`; a present one is filtered by
the single-key match rule and listed at its own revision. -/
def singleCore (s : MemoryStore) (key : String) (mm : MatchMode) (pred : Predicate)
    (fromRV : Option Nat) : ListRes :=
  match mapGet s.kvs key with
  | none => ⟨[], s.memoryRev, none, none⟩
  | some obj =>
    let rv := obj.obj.rv
    match fromRV with
    | some v =>
      if singleIncludeB mm v rv then ⟨appendListItem [] obj.obj pred, rv, none, none⟩
      else ⟨[], rv, none, none⟩
    | none => ⟨appendListItem [] obj.obj pred, rv, none, none⟩

/-- `getSingleObjectAsList`: parse the resource version when non-empty,
then `singleCore`. -/
def getSingleObjectAsList (s : MemoryStore) (key : String) (opts : ListOptions) :
    Except Err ListRes :=
  if opts.resourceVersion.length > 0 then
    match parseResourceVersion opts.resourceVersion with
    | none => .error (.badRequest "invalid resource version")
    | some v => .ok (singleCore s key opts.matchMode opts.pred (some v))
  else .ok (singleCore s key opts.matchMode opts.pred none)

/-- `GetList`: non-recursive mode delegates to the single-key path; the
recursive mode normalizes the prefix, parses the resource version, then
resolves the starting position — from the continue token (rejecting a
combination with a non-trivial resource version and a zero continue
revision; using the stored slot index of the continue key when the key map
still holds it at exactly the continue revision, the binary-search index
when it holds it at another revision, and index 0 when it no longer holds
it) or from the resource version by binary search — and ranges from there. -/
def getList (s : MemoryStore) (key : String) (opts : ListOptions) : Except Err ListRes :=
  if ¬ opts.recursive then getSingleObjectAsList s key opts
  else
    let keyPref := if ¬ endsWithSlash key then key ++ "/" else key
    let parsed : Except Err (Option Nat) :=
      if opts.resourceVersion.length > 0 then
        match parseResourceVersion opts.resourceVersion with
        | none => .error (.badRequest "invalid resource version")
        | some v => .ok (some v)
      else .ok none
    match parsed with
    | .error e => .error e
    | .ok fromRV =>
      match opts.pred.continueTok with
      | some (continueKey, continueRV) =>
        if opts.resourceVersion.length > 0 ∧ opts.resourceVersion ≠ "0" then
          .error (.badRequest "specifying resource version is not allowed when using continue")
        else if continueRV = 0 then
          .error (.badRequest "0 continue resource version is not allowed when using continue")
        else
          let withRV := if continueRV > 0 then continueRV.toNat else 0
          let returnedRV := if continueRV > 0 then continueRV.toNat else 1
          let searchingIndex :=
            match mapGet s.kvs continueKey with
            | some obj =>
              if obj.obj.rv = withRV then obj.index
              else binarySearchInObjList s.kvList withRV
            | none => 0
          .ok (rangeFromIndex s.kvList keyPref opts.matchMode opts.pred withRV returnedRV
                searchingIndex)
      | none =>
        match fromRV with
        | some v =>
          if v > 0 then
            .ok (rangeFromIndex s.kvList keyPref opts.matchMode opts.pred v v
                  (binarySearchInObjList s.kvList v))
          else .ok (rangeFromIndex s.kvList keyPref opts.matchMode opts.pred 0 1 0)
        | none => .ok (rangeFromIndex s.kvList keyPref opts.matchMode opts.pred 0 1 0)

/-! ## Lemmas about Go's `sort.Search` loop -/

theorem sortSearchLoop_ge (f : Nat → Bool) (i j : Nat) : i ≤ sortSearchLoop f i j := by
  induction i, j using sortSearchLoop.induct f with
  | case1 i j h m hm ih =>
    rw [sortSearchLoop]
    simp only [h, dif_pos, hm, if_pos]
    exact ih
  | case2 i j h m hm ih =>
    rw [sortSearchLoop]
    simp only [h, dif_pos, hm, if_neg, Bool.not_eq_true]
    have : i ≤ (i + j) / 2 + 1 := by omega
    exact le_trans this ih
  | case3 i j h =>
    rw [sortSearchLoop]
    simp [h]

theorem sortSearchLoop_le (f : Nat → Bool) (i j : Nat) (hij : i ≤ j) :
    sortSearchLoop f i j ≤ j := by
  induction i, j using sortSearchLoop.induct f with
  | case1 i j h m hm ih =>
    rw [sortSearchLoop]
    simp only [h, dif_pos, hm, if_pos]
    have hm2 : (i + j) / 2 ≤ j := by omega
    exact le_trans (ih (by omega)) hm2
  | case2 i j h m hm ih =>
    rw [sortSearchLoop]
    simp only [h, dif_pos, hm, if_neg, Bool.not_eq_true]
    exact ih (by omega)
  | case3 i j h =>
    rw [sortSearchLoop]
    simp only [h, dif_neg, not_false_iff]
    omega

theorem sortSearchLoop_at (f : Nat → Bool) (i j : Nat)
    (h : sortSearchLoop f i j < j) : f (sortSearchLoop f i j) = true := by
  induction i, j using sortSearchLoop.induct f with
  | case1 i j hij m hm ih =>
    rw [sortSearchLoop] at h ⊢
    simp only [hij, dif_pos, hm, if_pos] at h ⊢
    rcases Nat.lt_or_ge (sortSearchLoop f i ((i + j) / 2)) ((i + j) / 2) with hlt | hge
    · exact ih hlt
    · have hle := sortSearchLoop_le f i ((i + j) / 2) (by omega)
      have : sortSearchLoop f i ((i + j) / 2) = (i + j) / 2 := by omega
      rw [this]
      exact hm
  | case2 i j hij m hm ih =>
    rw [sortSearchLoop] at h ⊢
    simp only [hij, dif_pos, hm, if_neg, Bool.not_eq_true] at h ⊢
    exact ih h
  | case3 i j hij =>
    rw [sortSearchLoop] at h
    simp only [hij, dif_neg, not_false_iff] at h

theorem sortSearchLoop_below (f : Nat → Bool) (n : Nat)
    (hmono : ∀ a b, a ≤ b → b < n → f a = true → f b = true) :
    ∀ i j, j ≤ n → ∀ k, i ≤ k → k < sortSearchLoop f i j → f k = false := by
  intro i j
  induction i, j using sortSearchLoop.induct f with
  | case1 i j hij m hm ih =>
    intro hjn k hik hk
    rw [sortSearchLoop] at hk
    simp only [hij, dif_pos, hm, if_pos] at hk
    exact ih (by omega) k hik hk
  | case2 i j hij m hm ih =>
    intro hjn k hik hk
    rw [sortSearchLoop] at hk
    simp only [hij, dif_pos, hm, if_neg, Bool.not_eq_true] at hk
    rcases Nat.lt_or_ge k ((i + j) / 2 + 1) with hkm | hkm
    · rcases Bool.eq_false_or_eq_true (f k) with hfk | hfk
      · exact absurd (hmono k ((i + j) / 2) (by omega) (by omega) hfk) hm
      · exact hfk
    · exact ih (by omega) k hkm hk
  | case3 i j hij =>
    intro hjn k hik hk
    rw [sortSearchLoop] at hk
    simp only [hij, dif_neg, not_false_iff] at hk
    omega

/-! ## C5: `binarySearchInObjList` -/

/-- C5 (amended): when the search predicate "slot non-nil with revision at
least r" is monotone along the list — in particular when no nil slot
follows the first qualifying index — `binarySearchInObjList` returns the
smallest index whose slot is non-nil and holds an object with revision at
least `rv` (every earlier non-nil slot has a smaller revision), and
returns the list length when no such slot exists; with non-monotone nil
placement the binary search can miss qualifying slots. -/
theorem binarySearchInObjList_least_qualifying (l : List (Option ObjWithIndex)) (rv : Nat)
    (hmono : ∀ j, j < l.length → ∀ i, i ≤ j →
      objListSearchPred l rv i = true → objListSearchPred l rv j = true) :
    binarySearchInObjList l rv ≤ l.length ∧
    (∀ k, k < binarySearchInObjList l rv → ∀ wi, l.get? k = some (some wi) → wi.obj.rv < rv) ∧
    (binarySearchInObjList l rv < l.length →
      ∃ wi, l.get? (binarySearchInObjList l rv) = some (some wi) ∧ rv ≤ wi.obj.rv) := by
  have hle : binarySearchInObjList l rv ≤ l.length :=
    sortSearchLoop_le _ 0 l.length (Nat.zero_le _)
  refine ⟨hle, ?_, ?_⟩
  · intro k hk wi hwi
    have hkl : k < l.length := lt_of_lt_of_le hk hle
    have hfalse : objListSearchPred l rv k = false :=
      sortSearchLoop_below _ l.length
        (fun a b hab hb => hmono b hb a hab) 0 l.length (le_refl _) k (Nat.zero_le _) hk
    unfold objListSearchPred at hfalse
    rw [Nat.mod_eq_of_lt hkl, hwi] at hfalse
    simp only [decide_eq_false_iff_not, not_le] at hfalse
    exact hfalse
  · intro hlt
    have htrue : objListSearchPred l rv (binarySearchInObjList l rv) = true :=
      sortSearchLoop_at _ 0 l.length hlt
    unfold objListSearchPred at htrue
    rw [Nat.mod_eq_of_lt hlt] at htrue
    rcases hget : l.get? (binarySearchInObjList l rv) with _ | (_ | wi)
    · rw [hget] at htrue; simp at htrue
    · rw [hget] at htrue; simp at htrue
    · rw [hget] at htrue
      simp only [decide_eq_true_eq] at htrue
      exact ⟨wi, rfl, htrue⟩

/-- A concrete object at revision 5 and the two-slot list that defeats the
binary search: a qualifying slot at index 0 followed by a tombstone. -/
def oA : Obj := { rv := 5, payload := 1, deletionTimestampSet := false, finalizersEmpty := true }

/-- Slot for `oA` at index 0, key "p/a". -/
def wiA : ObjWithIndex := { key := "p/a", obj := oA, index := 0 }

/-- The list `[some wiA, none]`: slot 0 qualifies for revision 5, yet the
nil slot at index 1 makes the `sort.Search` predicate non-monotone. -/
def L5 : List (Option ObjWithIndex) := [some wiA, none]

/-- C5 (counterexample): on `[slot at revision 5, nil]` and asked revision
5, `binarySearchInObjList` returns 2 — the list length — even though the
non-nil slot at index 0 holds revision 5 ≥ 5, so the function neither
returns the smallest qualifying index nor returns the length only when no
qualifying slot exists. -/
theorem binarySearchInObjList_misses_qualifying_slot :
    binarySearchInObjList L5 5 = 2 ∧
    L5.get? 0 = some (some wiA) ∧ 5 ≤ wiA.obj.rv ∧ (0 : Nat) < 2 := by
  refine ⟨?_, rfl, by decide, by decide⟩
  simp [binarySearchInObjList, sortSearchLoop, objListSearchPred, L5, wiA, oA]

/-- A fully live, revision-sorted three-slot list for the witness. -/
def L5W : List (Option ObjWithIndex) :=
  [some { key := "p/a", obj := { rv := 3, payload := 0, deletionTimestampSet := false, finalizersEmpty := true }, index := 0 },
   some { key := "p/b", obj := { rv := 5, payload := 0, deletionTimestampSet := false, finalizersEmpty := true }, index := 1 },
   some { key := "p/c", obj := { rv := 9, payload := 0, deletionTimestampSet := false, finalizersEmpty := true }, index := 2 }]

/-- Witness for C5 (amended) at a concrete monotone list: the search for
revision 5 lands on index 1, the least qualifying slot. -/
theorem binarySearchInObjList_least_qualifying_witness :
    (binarySearchInObjList L5W 5 ≤ L5W.length ∧
     (∀ k, k < binarySearchInObjList L5W 5 → ∀ wi, L5W.get? k = some (some wi) → wi.obj.rv < 5) ∧
     (binarySearchInObjList L5W 5 < L5W.length →
       ∃ wi, L5W.get? (binarySearchInObjList L5W 5) = some (some wi) ∧ 5 ≤ wi.obj.rv)) ∧
    binarySearchInObjList L5W 5 = 1 :=
  ⟨binarySearchInObjList_least_qualifying L5W 5 (by decide),
   by simp [binarySearchInObjList, sortSearchLoop, objListSearchPred, L5W]⟩

/-! ## C7: inclusion rules of the single-key path and the recursive walk -/

/-- The store holding only `oA` under "p/a" (slot 0). -/
def S7 : MemoryStore := { memoryRev := 5, kvs := [("p/a", wiA)], kvList := [some wiA] }

/-- A trivial predicate: no limit, no continue token, empty, matches all. -/
def predAll : Predicate :=
  { limit := 0, continueTok := none, empty := true, matchesObj := fun _ => true }

/-- C7 (counterexample): with the stored object at revision 5 and asked
revision 5 under match mode Exact, the single-key path includes the object
(its rule is revision equality), although revision 5 is not strictly
greater than 5, and the recursive walk's Exact rule excludes it — so the
two paths do not apply the same inclusion rule and the single-key rule is
not "include iff rv > asked". -/
theorem singleExact_includes_equal_revision :
    getSingleObjectAsList S7 "p/a"
        { recursive := false, resourceVersion := "5", matchMode := .exactMatch, pred := predAll } =
      .ok { items := [oA], rv := 5, continueTok := none, remaining := none } ∧
    ¬ (5 : Nat) < oA.rv ∧
    singleIncludeB .exactMatch 5 5 = true ∧
    singleIncludeSpec .exactMatch 5 5 = false := by
  refine ⟨?_, by decide, by decide, by decide⟩
  rfl

/-- C7 (amended): the single-key path applies the same inclusion rule as
the recursive walk for match modes NotOlderThan (include iff rv ≥ asked)
and unspecified (include iff rv > asked); under Exact, however, the
single-key path includes exactly when the revision equals the asked one,
while the recursive walk includes exactly when it is strictly greater. -/
theorem singleInclude_vs_listInclude (v rv : Nat) :
    (singleIncludeB .notOlderThan v rv = listIncludeB .notOlderThan v rv) ∧
    (singleIncludeB .unspecified v rv = listIncludeB .unspecified v rv) ∧
    (singleIncludeB .exactMatch v rv = true ↔ rv = v) ∧
    (listIncludeB .exactMatch v rv = true ↔ v < rv) := by
  simp [singleIncludeB, listIncludeB]

/-! ## C9: continue-token guards of recursive GetList -/

theorem strLengthPos (s : String) (h : s ≠ "") : 0 < s.length := by
  rcases s with ⟨l⟩
  cases l with
  | nil => exact absurd rfl h
  | cons c t => simp [String.length]

/-- C9: a recursive GetList carrying a continue token together with a
resource version other than "" or "0", or whose decoded continue revision
is 0, fails with a bad-request error; the result is the same whatever the
store state holds — neither the key map nor the revision list is
consulted, and (GetList being a pure read) the state is unchanged. -/
theorem getList_continue_guard_badRequest (key ck : String) (crv : Int)
    (mm : MatchMode) (pred : Predicate) (rvs : String)
    (htok : pred.continueTok = some (ck, crv))
    (h : (rvs ≠ "" ∧ rvs ≠ "0") ∨ crv = 0) :
    ∃ m, ∀ s : MemoryStore,
      getList s key { recursive := true, resourceVersion := rvs, matchMode := mm, pred := pred } =
        .error (.badRequest m) := by
  rcases h with ⟨h1, h2⟩ | h0
  · have hlen : 0 < rvs.length := strLengthPos rvs h1
    rcases hparse : parseResourceVersion rvs with _ | v
    · exact ⟨"invalid resource version", fun s => by
        simp [getList, hlen, hparse, htok]⟩
    · exact ⟨"specifying resource version is not allowed when using continue", fun s => by
        simp [getList, hlen, hparse, htok, h2]⟩
  · subst h0
    by_cases h1 : rvs = ""
    · subst h1
      exact ⟨"0 continue resource version is not allowed when using continue", fun s => by
        simp [getList, htok]⟩
    · have hlen : 0 < rvs.length := strLengthPos rvs h1
      rcases hparse : parseResourceVersion rvs with _ | v
      · exact ⟨"invalid resource version", fun s => by
          simp [getList, hlen, hparse, htok]⟩
      · by_cases h2 : rvs = "0"
        · subst h2
          exact ⟨"0 continue resource version is not allowed when using continue", fun s => by
            simp [getList, hlen, hparse, htok]⟩
        · exact ⟨"specifying resource version is not allowed when using continue", fun s => by
            simp [getList, hlen, hparse, htok, h2]⟩

/-- Witness for C9 at a concrete call: resource version "5" with a continue
token decoding to ("p/zz", 7). -/
theorem getList_continue_guard_badRequest_witness :
    ∃ m, ∀ s : MemoryStore,
      getList s "p"
          { recursive := true, resourceVersion := "5", matchMode := .unspecified,
            pred := { limit := 0, continueTok := some ("p/zz", 7), empty := true,
                      matchesObj := fun _ => true } } =
        .error (.badRequest m) :=
  getList_continue_guard_badRequest "p" "p/zz" 7 .unspecified
    { limit := 0, continueTok := some ("p/zz", 7), empty := true, matchesObj := fun _ => true }
    "5" rfl (Or.inl (by decide))

/-! ## C1: resolution of the starting index from a continue token -/

/-- C1 (amended): a recursive GetList whose continue token decodes to
`(ck, crv)` with `crv > 0` (and a trivial resource version) ranges over
the revision-ordered list starting at the stored slot index of `ck` when
the key map still holds `ck` at exactly revision `crv`; at the index found
by binary-searching for `crv` when the map holds `ck` at some other
revision; and at index 0 when the map no longer holds `ck`. -/
theorem getList_continue_start_resolution (s : MemoryStore) (key ck : String) (crv : Int)
    (mm : MatchMode) (pred : Predicate) (rvs : String)
    (htok : pred.continueTok = some (ck, crv)) (hpos : 0 < crv)
    (hrvs : rvs = "" ∨ rvs = "0") :
    getList s key { recursive := true, resourceVersion := rvs, matchMode := mm, pred := pred } =
      .ok (rangeFromIndex s.kvList (if ¬ endsWithSlash key then key ++ "/" else key) mm pred
        crv.toNat crv.toNat
        (match mapGet s.kvs ck with
         | some obj =>
           if obj.obj.rv = crv.toNat then obj.index
           else binarySearchInObjList s.kvList crv.toNat
         | none => 0)) := by
  have hne : crv ≠ 0 := ne_of_gt hpos
  rcases hrvs with hrvs | hrvs <;> subst hrvs
  · simp [getList, htok, hne, hpos]
  · simp only [getList, htok, hne, hpos, parseResourceVersion, parseDecimal]
    rfl

/-- The store used by the C1 counterexample and witness: object `oA` at
revision 5 in slot 0, a tombstone in slot 1, and no entry for "p/zz". -/
def S1 : MemoryStore := { memoryRev := 6, kvs := [("p/a", wiA)], kvList := L5 }

/-- A match-all predicate carrying the continue token ("p/zz", 5). -/
def predT : Predicate :=
  { limit := 0, continueTok := some ("p/zz", 5), empty := true, matchesObj := fun _ => true }

/-- The options of the C1 counterexample call. -/
def opts1 : ListOptions :=
  { recursive := true, resourceVersion := "", matchMode := .notOlderThan, pred := predT }

/-- C1 (counterexample): the continue key "p/zz" is absent from the key
map and binary search for the continue revision 5 yields index 2, yet the
call returns the page produced by walking from index 0 (it contains `oA`),
while ranging from the binary-search index would return the empty page —
so the walk does not start at the binary-search index in the "otherwise"
case of the claim. -/
theorem getList_continue_fallback_cex :
    mapGet S1.kvs "p/zz" = none ∧
    binarySearchInObjList S1.kvList 5 = 2 ∧
    getList S1 "p" opts1 =
      .ok { items := [oA], rv := 5, continueTok := none, remaining := none } ∧
    rangeFromIndex S1.kvList "p/" .notOlderThan predT 5 5 (binarySearchInObjList S1.kvList 5) =
      { items := [], rv := 5, continueTok := none, remaining := none } ∧
    ([oA] : List Obj) ≠ [] := by
  refine ⟨by decide, ?_, ?_, ?_, by decide⟩
  · simp [binarySearchInObjList, sortSearchLoop, objListSearchPred, S1, L5, wiA, oA]
  · simp [getList, S1, opts1, predT, L5, wiA, oA, endsWithSlash, mapGet, binarySearchInObjList,
      sortSearchLoop, objListSearchPred, rangeFromIndex, pageOf, effLimit, walkFrom, stepItems,
      hasPref, listIncludeB, appendListItem, maxInt64]
  · simp [S1, predT, L5, wiA, oA, binarySearchInObjList, sortSearchLoop, objListSearchPred,
      rangeFromIndex]

/-- Witness for C1 (amended) at the concrete state `S1`: the continue key
is absent, so the call ranges from index 0. -/
theorem getList_continue_start_resolution_witness :
    getList S1 "p" opts1 =
      .ok (rangeFromIndex S1.kvList (if ¬ endsWithSlash "p" then "p" ++ "/" else "p")
        .notOlderThan predT (Int.toNat 5) (Int.toNat 5)
        (match mapGet S1.kvs "p/zz" with
         | some obj =>
           if obj.obj.rv = Int.toNat 5 then obj.index
           else binarySearchInObjList S1.kvList (Int.toNat 5)
         | none => 0)) :=
  getList_continue_start_resolution S1 "p" "p/zz" 5 .notOlderThan predT "" rfl (by decide)
    (Or.inl rfl)

/-! ## C6: round trips -/

theorem mapGet_cons_self (kvs : List (String × ObjWithIndex)) (key : String) (wi : ObjWithIndex) :
    mapGet ((key, wi) :: kvs) key = some wi := by
  simp [mapGet, List.find?]

theorem mapGet_del_self (kvs : List (String × ObjWithIndex)) (key : String) :
    mapGet (mapDel kvs key) key = none := by
  unfold mapGet
  suffices h : List.find? (fun p => p.1 == key) (mapDel kvs key) = none by rw [h]
  unfold mapDel
  induction kvs with
  | nil => rfl
  | cons p t ih =>
    simp only [List.filter_cons]
    by_cases hp : p.1 = key
    · rw [if_neg (by simp [hp])]
      exact ih
    · rw [if_pos (by simp [hp])]
      rw [List.find?_cons_of_neg _ (by simp [hp])]
      exact ih

/-- C6: a successful Create(K, O) followed by Get(K) returns exactly the
object stored by the Create (deep equality is plain equality of the value
model), carrying the revision the Create assigned — the successor of the
pre-state counter; and a successful Delete(K) followed by Get(K) without
ignoreNotFound fails with KeyNotFound. -/
theorem create_get_delete_roundtrip (s : MemoryStore) (key : String) (obj : Obj) :
    (∀ s1 out rev, create s key obj = .ok (s1, out, rev) →
       get s1 key { ignoreNotFound := false, resourceVersion := "" } = .ok out ∧
       out.rv = rev ∧ rev = s.memoryRev + 1) ∧
    (∀ pre validate s1 rev, deleteOp s key pre validate = .ok (s1, rev) →
       get s1 key { ignoreNotFound := false, resourceVersion := "" } =
         .error (.keyNotFound key)) := by
  constructor
  · intro s1 out rev hc
    unfold create at hc
    rcases hget : mapGet s.kvs key with _ | wi
    · simp only [hget, reserveRevAndSlot, mapPut, mapGet_cons_self, if_pos,
        Except.ok.injEq, Prod.mk.injEq] at hc
      rcases hc with ⟨hs1, hout, hrev⟩
      subst hs1 hout hrev
      refine ⟨?_, rfl, rfl⟩
      unfold get
      rw [mapGet_cons_self]
      simp [validateMinimumResourceVersion]
    · simp only [hget] at hc
      exact absurd hc (by simp)
  · intro pre validate s1 rev hd
    unfold deleteOp at hd
    rcases hget : mapGet s.kvs key with _ | wi
    · simp only [hget] at hd
      exact absurd hd (by simp)
    · simp only [hget] at hd
      rcases hpc : precondCheck pre key wi.obj with e | u
      · rw [hpc] at hd; exact absurd hd (by simp)
      · rw [hpc] at hd
        rcases hv : validate wi.obj with e | u
        · rw [hv] at hd; exact absurd hd (by simp)
        · rw [hv] at hd
          simp only [Except.ok.injEq, Prod.mk.injEq] at hd
          rcases hd with ⟨hs1, hrev⟩
          subst hs1
          simp [get, mapGet_del_self]

/-- The stored object, slot and states of the C6 witness scenario. -/
def rtO6 : Obj := { rv := 6, payload := 7, deletionTimestampSet := false, finalizersEmpty := true }

/-- Slot of the C6 witness. -/
def rtWi : ObjWithIndex := { key := "a/b", obj := rtO6, index := 0 }

/-- State after the witness Create. -/
def rtS1 : MemoryStore := { memoryRev := 6, kvs := [("a/b", rtWi)], kvList := [some rtWi] }

/-- State after the witness Delete. -/
def rtS2 : MemoryStore := { memoryRev := 7, kvs := [], kvList := [none] }

/-- Witness for C6: create "a/b" in an empty store at counter 5, read it
back, delete it, read again. -/
theorem create_get_delete_roundtrip_witness :
    (get rtS1 "a/b" { ignoreNotFound := false, resourceVersion := "" } = .ok rtO6 ∧
     rtO6.rv = 6 ∧ (6 : Nat) = 5 + 1) ∧
    (get rtS2 "a/b" { ignoreNotFound := false, resourceVersion := "" } =
      .error (.keyNotFound "a/b")) := by
  constructor
  · exact (create_get_delete_roundtrip { memoryRev := 5, kvs := [], kvList := [] } "a/b"
      { rv := 99, payload := 7, deletionTimestampSet := false, finalizersEmpty := true }).1
      rtS1 rtO6 6 (by decide)
  · exact (create_get_delete_roundtrip rtS1 "a/b" zeroObj).2
      none (fun _ => .ok ()) rtS2 7 (by decide)

/-! ## C8: EnsureUpdateAndDelete swallows the inner Delete error -/

/-- C8: whenever the inner GuaranteedUpdate succeeds,
EnsureUpdateAndDelete returns success; in particular when the updated
object signals deletion and the subsequent Delete fails, the Delete error
is swallowed and the post-update state and object are returned as if
nothing went wrong. -/
theorem ensureUpdateAndDelete_swallows_delete_error (s : MemoryStore) (key : String)
    (ignoreNotFound : Bool) (pre : Option Precond) (updatedObj : Obj)
    (s1 : MemoryStore) (output : Obj) (rev : Option Nat)
    (hup : guaranteedUpdate s key ignoreNotFound pre (mkTryUpdate updatedObj) =
      .ok (s1, output, rev)) :
    (∃ s2, ensureUpdateAndDelete s key ignoreNotFound pre updatedObj = .ok (s2, output)) ∧
    (∀ e, shouldDeleteSpec output = true →
      deleteOp s1 key pre (fun _ => .ok ()) = .error e →
      ensureUpdateAndDelete s key ignoreNotFound pre updatedObj = .ok (s1, output)) := by
  constructor
  · unfold ensureUpdateAndDelete
    rw [hup]
    by_cases hdel : shouldDeleteSpec output
    · simp only [hdel, if_pos]
      rcases hd : deleteOp s1 key pre (fun _ => .ok ()) with e | ⟨s2, r⟩
      · exact ⟨s1, rfl⟩
      · exact ⟨s2, rfl⟩
    · simp only [hdel, if_neg, Bool.not_eq_true]
      exact ⟨s1, rfl⟩
  · intro e hsd hde
    unfold ensureUpdateAndDelete
    rw [hup]
    simp only [hsd, if_pos, hde]

/-- Start state of the C8 witness: "a/b" at revision 5. -/
def c8S0 : MemoryStore :=
  { memoryRev := 5, kvs := [("a/b", { key := "a/b", obj := oA, index := 0 })],
    kvList := [some { key := "a/b", obj := oA, index := 0 }] }

/-- The updated object the C8 witness submits: signals deletion. -/
def c8Upd : Obj := { rv := 0, payload := 9, deletionTimestampSet := true, finalizersEmpty := true }

/-- The object GuaranteedUpdate stores and returns in the C8 witness. -/
def c8Out : Obj := { rv := 6, payload := 9, deletionTimestampSet := true, finalizersEmpty := true }

/-- The slot written by the C8 witness update. -/
def c8Wi : ObjWithIndex := { key := "a/b", obj := c8Out, index := 1 }

/-- The post-update state of the C8 witness. -/
def c8S1 : MemoryStore :=
  { memoryRev := 6, kvs := [("a/b", c8Wi)], kvList := [none, some c8Wi] }

/-- Witness for C8: updating "a/b" (current revision 5, precondition
resource version 5) to an object with deletion timestamp set and no
finalizers bumps it to revision 6; the chained Delete then fails its
precondition (5 ≠ 6), yet EnsureUpdateAndDelete reports success with the
post-update state. -/
theorem ensureUpdateAndDelete_swallows_delete_error_witness :
    (∃ s2, ensureUpdateAndDelete c8S0 "a/b" false (some { resourceVersion := some 5 }) c8Upd =
      .ok (s2, c8Out)) ∧
    deleteOp c8S1 "a/b" (some { resourceVersion := some 5 }) (fun _ => .ok ()) =
      .error (.preconditionFailed "a/b") := by
  refine ⟨?_, by decide⟩
  exact (ensureUpdateAndDelete_swallows_delete_error c8S0 "a/b" false
    (some { resourceVersion := some 5 }) c8Upd c8S1 c8Out (some 6) (by decide)).1

/-! ## C2: the continue token names the last emitted item -/

theorem stepItems_cases (mm : MatchMode) (withRV : Nat) (pred : Predicate)
    (items : List Obj) (v : ObjWithIndex) :
    (stepItems mm withRV pred items v = items) ∨
    (listIncludeB mm withRV v.obj.rv = true ∧ pred.matchesObj v.obj = true ∧
     stepItems mm withRV pred items v = items ++ [v.obj]) := by
  unfold stepItems appendListItem
  rcases h1 : listIncludeB mm withRV v.obj.rv with _ | _
  · simp
  · rcases h2 : pred.matchesObj v.obj with _ | _
    · simp [h2]
    · right
      exact ⟨rfl, rfl, by simp [h2]⟩

theorem walkFrom_hasMore_spec (l : List (Option ObjWithIndex)) (keyPref : String)
    (mm : MatchMode) (withRV : Nat) (pred : Predicate) (limit : Int) :
    ∀ (i : Nat) (items : List Obj) (lastKey : String) (lastRev : Nat),
      (items.length : Int) < limit →
      (walkFrom l keyPref mm withRV pred limit i items lastKey lastRev).hasMore = true →
      ∃ wi : ObjWithIndex, (some wi) ∈ l ∧
        pred.matchesObj wi.obj = true ∧
        hasPref wi.key keyPref = true ∧
        listIncludeB mm withRV wi.obj.rv = true ∧
        (walkFrom l keyPref mm withRV pred limit i items lastKey lastRev).items.getLast? =
          some wi.obj ∧
        (walkFrom l keyPref mm withRV pred limit i items lastKey lastRev).lastKey = wi.key ∧
        (walkFrom l keyPref mm withRV pred limit i items lastKey lastRev).lastRev = wi.obj.rv ∧
        ((walkFrom l keyPref mm withRV pred limit i items lastKey lastRev).items.length : Int) =
          limit := by
  intro i items lastKey lastRev
  induction i, items, lastKey, lastRev using walkFrom.induct l keyPref mm withRV pred limit with
  | case1 i items lastKey lastRev h hslot hlim hrem =>
    intro hlt _
    omega
  | case2 i items lastKey lastRev h hslot hlim hrem =>
    intro hlt _
    omega
  | case3 i items lastKey lastRev h hslot hlim ih =>
    intro hlt hm
    rw [walkFrom] at hm ⊢
    simp only [h, dif_pos, hslot, hlim, if_neg, not_false_iff] at hm ⊢
    exact ih hlt hm
  | case4 i items lastKey lastRev h cur hslot hpref hlim hrem =>
    intro hlt hm
    have hgoal : walkFrom l keyPref mm withRV pred limit i items lastKey lastRev =
        ⟨stepItems mm withRV pred items cur, cur.key, cur.obj.rv, (l.length : Int) - 1 - i,
         true⟩ := by
      rw [walkFrom]
      simp only [h, dif_pos, hslot, hpref, if_pos]
      rw [if_pos hlim, if_pos hrem]
    rw [hgoal]
    rcases stepItems_cases mm withRV pred items cur with hstep | ⟨hinc, hmat, hstep⟩
    · rw [hstep] at hlim
      omega
    · refine ⟨cur, ?_, hmat, hpref, hinc, ?_, rfl, rfl, hlim⟩
      · rw [← hslot]
        exact List.getElem_mem h
      · rw [hstep]
        simp
  | case5 i items lastKey lastRev h cur hslot hpref hlim hrem =>
    intro hlt hm
    have hgoal : walkFrom l keyPref mm withRV pred limit i items lastKey lastRev =
        ⟨stepItems mm withRV pred items cur, cur.key, cur.obj.rv, 0, false⟩ := by
      rw [walkFrom]
      simp only [h, dif_pos, hslot, hpref, if_pos]
      rw [if_pos hlim, if_neg hrem]
    rw [hgoal] at hm
    exact Bool.noConfusion hm
  | case6 i items lastKey lastRev h cur hslot hpref hlim ih =>
    intro hlt hm
    rw [walkFrom] at hm ⊢
    simp only [h, dif_pos, hslot, hpref, if_pos, hlim, if_neg, not_false_iff] at hm ⊢
    have hlt1 : ((stepItems mm withRV pred items cur).length : Int) < limit := by
      rcases stepItems_cases mm withRV pred items cur with hstep | ⟨_, _, hstep⟩
      · rw [hstep]
        exact hlt
      · rw [hstep] at hlim ⊢
        simp only [List.length_append, List.length_cons, List.length_nil] at hlim ⊢
        omega
    exact ih hlt1 hm
  | case7 i items lastKey lastRev h cur hslot hpref ih =>
    intro hlt hm
    rw [walkFrom] at hm ⊢
    simp only [h, dif_pos, hslot, hpref, if_neg, not_false_iff, Bool.not_eq_true] at hm ⊢
    exact ih hlt hm
  | case8 i items lastKey lastRev h =>
    intro hlt hm
    have hgoal : walkFrom l keyPref mm withRV pred limit i items lastKey lastRev =
        ⟨items, lastKey, lastRev, 0, false⟩ := by
      rw [walkFrom]
      exact dif_neg h
    rw [hgoal] at hm
    exact Bool.noConfusion hm

/-- The page assembly (`rangeFromIndex`) propagates the walk facts: a
returned token names the last emitted item. -/
theorem rangeFromIndex_token_spec (l : List (Option ObjWithIndex)) (keyPref : String)
    (mm : MatchMode) (pred : Predicate) (withRV returnedRV searchingIndex : Nat)
    (hlim : 0 < pred.limit) (k : String) (r : Int)
    (htok : (rangeFromIndex l keyPref mm pred withRV returnedRV searchingIndex).continueTok =
      some (k, r)) :
    ∃ wi : ObjWithIndex, (some wi) ∈ l ∧
      pred.matchesObj wi.obj = true ∧
      hasPref wi.key keyPref = true ∧
      listIncludeB mm withRV wi.obj.rv = true ∧
      (rangeFromIndex l keyPref mm pred withRV returnedRV searchingIndex).items.getLast? =
        some wi.obj ∧
      k = wi.key ∧ r = (wi.obj.rv : Int) ∧
      ((rangeFromIndex l keyPref mm pred withRV returnedRV searchingIndex).items.length : Int) =
        pred.limit ∧
      ((rangeFromIndex l keyPref mm pred withRV returnedRV searchingIndex).remaining.isSome =
        pred.empty) := by
  unfold rangeFromIndex at htok ⊢
  by_cases hidx : searchingIndex ≥ l.length
  · simp [hidx] at htok
  · simp only [hidx, if_neg, not_false_iff] at htok ⊢
    have hlimit : effLimit pred = pred.limit := by simp [effLimit, hlim]
    rw [hlimit] at htok ⊢
    unfold pageOf at htok ⊢
    rcases hmore : (walkFrom l keyPref mm withRV pred pred.limit searchingIndex [] "" withRV).hasMore
      with _ | _
    · rw [hmore] at htok
      simp at htok
    · rcases walkFrom_hasMore_spec l keyPref mm withRV pred pred.limit searchingIndex [] "" withRV
        (by simpa using hlim) hmore with ⟨wi, hmem, hmat, hpref, hinc, hlast, hlk, hlr, hlen⟩
      rw [hmore] at htok
      by_cases hemp : pred.empty
      · simp only [hemp, if_pos, if_true] at htok ⊢
        simp only [Option.some.injEq, Prod.mk.injEq] at htok
        refine ⟨wi, hmem, hmat, hpref, hinc, hlast, ?_, ?_, hlen, by simp [hemp]⟩
        · rw [← htok.1, hlk]
        · rw [← htok.2, hlr]
      · simp only [hemp, if_neg, not_false_iff, Bool.not_eq_true, if_true] at htok ⊢
        simp only [Option.some.injEq, Prod.mk.injEq] at htok
        refine ⟨wi, hmem, hmat, hpref, hinc, hlast, ?_, ?_, hlen, by simp [hemp]⟩
        · rw [← htok.1, hlk]
        · rw [← htok.2, hlr]

/-- Every successful recursive GetList is a `rangeFromIndex` page. -/
theorem getList_recursive_is_range (s : MemoryStore) (key : String) (opts : ListOptions)
    (hrec : opts.recursive = true) (res : ListRes)
    (hok : getList s key opts = .ok res) :
    ∃ withRV returnedRV idx,
      res = rangeFromIndex s.kvList (if ¬ endsWithSlash key then key ++ "/" else key)
        opts.matchMode opts.pred withRV returnedRV idx := by
  unfold getList at hok
  rw [hrec] at hok
  simp only [Bool.true_eq_false, not_true_eq_false, if_neg, not_false_iff] at hok
  rcases hparse : (if opts.resourceVersion.length > 0 then
      match parseResourceVersion opts.resourceVersion with
      | none => Except.error (Err.badRequest "invalid resource version")
      | some v => Except.ok (some v)
    else Except.ok none : Except Err (Option Nat)) with e | fromRV
  · rw [hparse] at hok
    exact absurd hok (by simp)
  · rw [hparse] at hok
    rcases htok : opts.pred.continueTok with _ | ⟨ck, crv⟩
    · rw [htok] at hok
      rcases fromRV with _ | v
      · simp only [Except.ok.injEq] at hok
        exact ⟨0, 1, 0, hok.symm⟩
      · by_cases hv : v > 0
        · simp only [hv, if_pos, Except.ok.injEq] at hok
          exact ⟨v, v, binarySearchInObjList s.kvList v, hok.symm⟩
        · simp only [hv, if_neg, not_false_iff, Except.ok.injEq] at hok
          exact ⟨0, 1, 0, hok.symm⟩
    · rw [htok] at hok
      simp only [ne_eq] at hok
      by_cases hbad : opts.resourceVersion.length > 0 ∧ ¬ opts.resourceVersion = "0"
      · rw [if_pos hbad] at hok
        exact absurd hok (by simp)
      · rw [if_neg hbad] at hok
        by_cases hz : crv = 0
        · rw [if_pos hz] at hok
          exact absurd hok (by simp)
        · rw [if_neg hz] at hok
          simp only [Except.ok.injEq] at hok
          refine ⟨if crv > 0 then crv.toNat else 0, if crv > 0 then crv.toNat else 1, _, hok.symm⟩

/-- C2: whenever a recursive GetList with a positive predicate limit
returns a continue token, the page stopped at exactly `limit` collected
items with slots remaining, the token carries the key and revision of the
last emitted item (the final item of the returned page, matched by the
predicate, prefix and revision rule), and `remainingItemCount` is reported
exactly when the predicate is empty. -/
theorem getList_token_names_last_emitted (s : MemoryStore) (key : String) (opts : ListOptions)
    (hrec : opts.recursive = true) (hlim : 0 < opts.pred.limit)
    (res : ListRes) (k : String) (r : Int)
    (hok : getList s key opts = .ok res)
    (htok : res.continueTok = some (k, r)) :
    ∃ wi : ObjWithIndex, (some wi) ∈ s.kvList ∧
      opts.pred.matchesObj wi.obj = true ∧
      hasPref wi.key (if ¬ endsWithSlash key then key ++ "/" else key) = true ∧
      res.items.getLast? = some wi.obj ∧
      k = wi.key ∧ r = (wi.obj.rv : Int) ∧
      (res.items.length : Int) = opts.pred.limit ∧
      (res.remaining.isSome = opts.pred.empty) := by
  rcases getList_recursive_is_range s key opts hrec res hok with ⟨withRV, returnedRV, idx, hres⟩
  subst hres
  rcases rangeFromIndex_token_spec s.kvList (if ¬ endsWithSlash key then key ++ "/" else key)
    opts.matchMode opts.pred withRV returnedRV idx hlim k r htok with
    ⟨wi, hmem, hmat, hpref, _, hlast, hk, hr, hlen, hrem⟩
  exact ⟨wi, hmem, hmat, hpref, hlast, hk, hr, hlen, hrem⟩

/-- The C2 witness store: three objects under "p/" at revisions 1, 2, 3. -/
def c2S : MemoryStore :=
  { memoryRev := 3,
    kvs := [("p/a", { key := "p/a", obj := { rv := 1, payload := 1, deletionTimestampSet := false, finalizersEmpty := true }, index := 0 }),
            ("p/b", { key := "p/b", obj := { rv := 2, payload := 2, deletionTimestampSet := false, finalizersEmpty := true }, index := 1 }),
            ("p/c", { key := "p/c", obj := { rv := 3, payload := 3, deletionTimestampSet := false, finalizersEmpty := true }, index := 2 })],
    kvList := [some { key := "p/a", obj := { rv := 1, payload := 1, deletionTimestampSet := false, finalizersEmpty := true }, index := 0 },
               some { key := "p/b", obj := { rv := 2, payload := 2, deletionTimestampSet := false, finalizersEmpty := true }, index := 1 },
               some { key := "p/c", obj := { rv := 3, payload := 3, deletionTimestampSet := false, finalizersEmpty := true }, index := 2 }] }

/-- The C2 witness options: limit 2, empty predicate matching all. -/
def c2Opts : ListOptions :=
  { recursive := true, resourceVersion := "",
    matchMode := .unspecified,
    pred := { limit := 2, continueTok := none, empty := true, matchesObj := fun _ => true } }

/-- Witness for C2 at the concrete page: listing "p" with limit 2 returns
two items, the token ("p/b", 2), and remaining count 1; the theorem
recovers the last emitted slot. -/
theorem getList_token_names_last_emitted_witness :
    ∃ wi : ObjWithIndex, (some wi) ∈ c2S.kvList ∧
      c2Opts.pred.matchesObj wi.obj = true ∧
      hasPref wi.key (if ¬ endsWithSlash "p" then "p" ++ "/" else "p") = true ∧
      ({ items := [{ rv := 1, payload := 1, deletionTimestampSet := false, finalizersEmpty := true },
                   { rv := 2, payload := 2, deletionTimestampSet := false, finalizersEmpty := true }],
         rv := 1, continueTok := some ("p/b", 2), remaining := some 1 } : ListRes).items.getLast? =
        some wi.obj ∧
      "p/b" = wi.key ∧ (2 : Int) = (wi.obj.rv : Int) ∧
      (([{ rv := 1, payload := 1, deletionTimestampSet := false, finalizersEmpty := true },
          { rv := 2, payload := 2, deletionTimestampSet := false, finalizersEmpty := true }] :
          List Obj).length : Int) = c2Opts.pred.limit ∧
      ((some (1 : Int)).isSome = c2Opts.pred.empty) := by
  have h := getList_token_names_last_emitted c2S "p" c2Opts rfl (by decide)
    { items := [{ rv := 1, payload := 1, deletionTimestampSet := false, finalizersEmpty := true },
                { rv := 2, payload := 2, deletionTimestampSet := false, finalizersEmpty := true }],
      rv := 1, continueTok := some ("p/b", 2), remaining := some 1 }
    "p/b" 2 ?hok rfl
  · exact h
  case hok =>
    simp [getList, c2S, c2Opts, endsWithSlash, rangeFromIndex, pageOf, effLimit, walkFrom,
      stepItems, hasPref, listIncludeB, appendListItem, maxInt64]

/-! ## C4: revision monotonicity and slot ordering across mutation sequences -/

/-- Ordering between slots: two live slots are ordered by object revision;
a tombstone is unconstrained. -/
def slotRevLt : Option ObjWithIndex → Option ObjWithIndex → Prop
  | some x, some y => x.obj.rv < y.obj.rv
  | _, _ => True

instance slotRevLt.decRel : DecidableRel slotRevLt := fun a b => by
  unfold slotRevLt
  cases a <;> cases b <;> infer_instance

/-- Every live slot's revision is at most `n`. -/
def SlotsBounded (l : List (Option ObjWithIndex)) (n : Nat) : Prop :=
  ∀ o ∈ l, ∀ wi : ObjWithIndex, o = some wi → wi.obj.rv ≤ n

instance SlotsBounded.decPred (n : Nat) :
    DecidablePred (fun o : Option ObjWithIndex => ∀ wi : ObjWithIndex, o = some wi → wi.obj.rv ≤ n) :=
  fun o =>
    match o with
    | none => isTrue (fun wi h => by cases h)
    | some x =>
      if hx : x.obj.rv ≤ n then isTrue (fun wi h => by cases h; exact hx)
      else isFalse (fun hall => hx (hall x rfl))

instance SlotsBounded.dec (l : List (Option ObjWithIndex)) (n : Nat) :
    Decidable (SlotsBounded l n) :=
  List.decidableBAll _ l

/-- The store invariant of the claim: the non-nil slots of the
revision-ordered list carry strictly increasing revisions in index order,
and no live slot's revision exceeds the global counter. -/
def Inv (s : MemoryStore) : Prop :=
  List.Pairwise slotRevLt s.kvList ∧ SlotsBounded s.kvList s.memoryRev

instance Inv.dec (s : MemoryStore) : Decidable (Inv s) := by
  unfold Inv
  infer_instance

theorem slotRevLt_none_left (b : Option ObjWithIndex) : slotRevLt none b := by
  cases b <;> trivial

theorem slotRevLt_none_right (a : Option ObjWithIndex) : slotRevLt a none := by
  cases a <;> trivial

theorem pairwise_set_none (l : List (Option ObjWithIndex)) (j : Nat)
    (h : List.Pairwise slotRevLt l) : List.Pairwise slotRevLt (l.set j none) := by
  rw [List.pairwise_iff_getElem] at h ⊢
  intro a b ha hb hab
  rw [List.length_set] at ha hb
  rw [List.getElem_set, List.getElem_set]
  by_cases hja : j = a
  · simp only [hja, if_pos]
    exact slotRevLt_none_left _
  · simp only [hja, if_neg, not_false_iff]
    by_cases hjb : j = b
    · simp only [hjb, if_pos]
      exact slotRevLt_none_right _
    · simp only [hjb, if_neg, not_false_iff]
      exact h a b ha hb hab

theorem slotsBounded_set_none (l : List (Option ObjWithIndex)) (n j : Nat)
    (h : SlotsBounded l n) : SlotsBounded (l.set j none) n := by
  intro o ho wi hwi
  rcases List.mem_or_eq_of_mem_set ho with h1 | h1
  · exact h o h1 wi hwi
  · subst h1
    cases hwi

theorem slotsBounded_mono (l : List (Option ObjWithIndex)) (n m : Nat)
    (h : SlotsBounded l n) (hnm : n ≤ m) : SlotsBounded l m :=
  fun o ho wi hwi => le_trans (h o ho wi hwi) hnm

theorem pairwise_snoc_live (l : List (Option ObjWithIndex)) (n : Nat) (wi : ObjWithIndex)
    (hp : List.Pairwise slotRevLt l) (hb : SlotsBounded l n) (hgt : n < wi.obj.rv) :
    List.Pairwise slotRevLt (l ++ [some wi]) := by
  rw [List.pairwise_append]
  refine ⟨hp, List.pairwise_singleton _ _, ?_⟩
  intro x hx y hy
  rw [List.mem_singleton] at hy
  subst hy
  cases x with
  | none => exact slotRevLt_none_left _
  | some z =>
    show z.obj.rv < wi.obj.rv
    exact lt_of_le_of_lt (hb _ hx z rfl) hgt

theorem slotsBounded_snoc (l : List (Option ObjWithIndex)) (n m : Nat) (wi : ObjWithIndex)
    (hb : SlotsBounded l n) (hn : n ≤ m) (hwi : wi.obj.rv ≤ m) :
    SlotsBounded (l ++ [some wi]) m := by
  intro o ho wj hwj
  rcases List.mem_append.1 ho with h1 | h1
  · exact le_trans (hb o h1 wj hwj) hn
  · rw [List.mem_singleton] at h1
    subst h1
    injection hwj with hwj
    subst hwj
    exact hwi

theorem set_snoc_length {α : Type} (l : List α) (x a : α) :
    (l ++ [x]).set l.length a = l ++ [a] := by
  induction l with
  | nil => rfl
  | cons y t ih => simp [List.set, ih]

theorem set_set_snoc {α : Type} (l : List α) (j : Nat) (x a b : α) :
    ((l ++ [x]).set j b).set l.length a = (l.set j b) ++ [a] := by
  induction l generalizing j with
  | nil =>
    cases j <;> rfl
  | cons y t ih =>
    cases j with
    | zero => simp [List.set, set_snoc_length]
    | succ j => simp [List.set, ih]

theorem set_oob {α : Type} (l : List α) (n : Nat) (a : α) (h : l.length ≤ n) :
    l.set n a = l := by
  induction l generalizing n with
  | nil => rfl
  | cons x t ih =>
    cases n with
    | zero => simp at h
    | succ n =>
      simp only [List.set]
      rw [ih n (by simpa using h)]

/-- The shape of the state change of one successful store operation: no
mutation; a fresh live slot appended at the counter's successor (with at
most one slot tombstoned); or a pure tombstoning (Delete). -/
def StateStep (s s1 : MemoryStore) (rev : Option Nat) : Prop :=
  (s1 = s ∧ rev = none) ∨
  (s1.memoryRev = s.memoryRev + 1 ∧ rev = some (s.memoryRev + 1) ∧
   ∃ j wi, s1.kvList = (s.kvList.set j none) ++ [some wi] ∧ wi.obj.rv = s.memoryRev + 1) ∨
  (s1.memoryRev = s.memoryRev + 1 ∧ rev = some (s.memoryRev + 1) ∧
   ∃ j, s1.kvList = s.kvList.set j none)

theorem stateStep_inv (s s1 : MemoryStore) (rev : Option Nat)
    (hInv : Inv s) (hstep : StateStep s s1 rev) : Inv s1 := by
  rcases hInv with ⟨hp, hb⟩
  rcases hstep with ⟨heq, _⟩ | ⟨hrev, _, j, wi, hl, hwi⟩ | ⟨hrev, _, j, hl⟩
  · subst heq
    exact ⟨hp, hb⟩
  · constructor
    · rw [hl]
      exact pairwise_snoc_live _ s.memoryRev wi (pairwise_set_none _ j hp)
        (slotsBounded_set_none _ _ j hb) (by omega)
    · rw [hl, hrev]
      exact slotsBounded_snoc _ s.memoryRev _ wi (slotsBounded_set_none _ _ j hb)
        (by omega) (by omega)
  · constructor
    · rw [hl]
      exact pairwise_set_none _ j hp
    · rw [hl, hrev]
      exact slotsBounded_mono _ s.memoryRev _ (slotsBounded_set_none _ _ j hb) (by omega)

theorem stateStep_rev (s s1 : MemoryStore) (rev : Option Nat)
    (hstep : StateStep s s1 rev) :
    (rev = none ∧ s1.memoryRev = s.memoryRev) ∨
    (rev = some (s.memoryRev + 1) ∧ s1.memoryRev = s.memoryRev + 1) := by
  rcases hstep with ⟨heq, hr⟩ | ⟨hrev, hr, _⟩ | ⟨hrev, hr, _⟩
  · subst heq
    exact Or.inl ⟨hr, rfl⟩
  · exact Or.inr ⟨hr, hrev⟩
  · exact Or.inr ⟨hr, hrev⟩

theorem create_step (s : MemoryStore) (key : String) (obj : Obj)
    (s1 : MemoryStore) (out : Obj) (rev : Nat)
    (h : create s key obj = .ok (s1, out, rev)) : StateStep s s1 (some rev) := by
  unfold create at h
  rcases hget : mapGet s.kvs key with _ | wi
  · simp only [hget, reserveRevAndSlot, mapPut, mapGet_cons_self, if_pos,
      Except.ok.injEq, Prod.mk.injEq] at h
    rcases h with ⟨hs1, hout, hrev⟩
    subst hs1 hrev
    refine Or.inr (Or.inl ⟨rfl, rfl, s.kvList.length,
      { key := key, obj := updateObjectResourceVersion (prepareObjectForStorage obj) (s.memoryRev + 1),
        index := s.kvList.length }, ?_, rfl⟩)
    rw [set_snoc_length, set_oob _ _ _ (le_refl _)]
  · simp only [hget] at h
    exact absurd h (by simp)

theorem deleteOp_step (s : MemoryStore) (key : String) (pre : Option Precond)
    (validate : Obj → Except Err Unit) (s1 : MemoryStore) (rev : Nat)
    (h : deleteOp s key pre validate = .ok (s1, rev)) : StateStep s s1 (some rev) := by
  unfold deleteOp at h
  rcases hget : mapGet s.kvs key with _ | wi
  · simp only [hget] at h
    exact absurd h (by simp)
  · simp only [hget] at h
    rcases hpc : precondCheck pre key wi.obj with e | u
    · rw [hpc] at h
      exact absurd h (by simp)
    · rw [hpc] at h
      rcases hv : validate wi.obj with e | u
      · rw [hv] at h
        exact absurd h (by simp)
      · rw [hv] at h
        simp only [Except.ok.injEq, Prod.mk.injEq] at h
        rcases h with ⟨hs1, hrev⟩
        subst hs1 hrev
        exact Or.inr (Or.inr ⟨rfl, rfl, wi.index, rfl⟩)

theorem guaranteedUpdate_step (s : MemoryStore) (key : String) (ignoreNotFound : Bool)
    (pre : Option Precond) (tryUpdate : Obj → Except Err Obj)
    (s1 : MemoryStore) (out : Obj) (rev : Option Nat)
    (h : guaranteedUpdate s key ignoreNotFound pre tryUpdate = .ok (s1, out, rev)) :
    StateStep s s1 rev := by
  unfold guaranteedUpdate at h
  rcases hget : mapGet s.kvs key with _ | wi
  · simp only [hget] at h
    rcases hinf : ignoreNotFound with _ | _
    · rw [hinf] at h
      simp at h
    · rw [hinf] at h
      simp only [if_pos, Except.ok.injEq, Prod.mk.injEq] at h
      exact Or.inl ⟨h.1.symm, h.2.2.symm⟩
  · simp only [hget] at h
    rcases hpc : precondCheck pre key wi.obj with e | u
    · rw [hpc] at h
      exact absurd h (by simp)
    · rw [hpc] at h
      rcases htu : tryUpdate wi.obj with e | ret
      · rw [htu] at h
        exact absurd h (by simp)
      · rw [htu] at h
        simp only [reserveRevAndSlot] at h
        rcases hput : mapPut s.kvs key
            { key := key, obj := updateObjectResourceVersion ret (s.memoryRev + 1),
              index := s.kvList.length } wi.obj.rv with e | kvs1
        · rw [hput] at h
          exact absurd h (by simp)
        · rw [hput] at h
          simp only [Except.ok.injEq, Prod.mk.injEq] at h
          rcases h with ⟨hs1, hout, hrev⟩
          subst hs1 hrev
          refine Or.inr (Or.inl ⟨rfl, rfl, wi.index,
            { key := key, obj := updateObjectResourceVersion ret (s.memoryRev + 1),
              index := s.kvList.length }, ?_, rfl⟩)
          exact set_set_snoc s.kvList wi.index none _ none

theorem createOrUpdate_step (s : MemoryStore) (key : String) (obj : Obj)
    (mergeFunc : Option (Obj → Obj → Except Err Obj))
    (s1 : MemoryStore) (out : Obj) (rev : Nat)
    (h : createOrUpdate s key obj mergeFunc = .ok (s1, out, rev)) :
    StateStep s s1 (some rev) := by
  unfold createOrUpdate at h
  rcases hget : mapGet s.kvs key with _ | wi
  · simp only [hget, reserveRevAndSlot, mapPut, mapGet_cons_self, if_pos,
      Except.ok.injEq, Prod.mk.injEq] at h
    rcases h with ⟨hs1, hout, hrev⟩
    subst hs1 hrev
    refine Or.inr (Or.inl ⟨rfl, rfl, s.kvList.length,
      { key := key, obj := updateObjectResourceVersion obj (s.memoryRev + 1),
        index := s.kvList.length }, ?_, rfl⟩)
    rw [set_snoc_length, set_oob _ _ _ (le_refl _)]
  · simp only [hget] at h
    rcases mergeFunc with _ | merge
    · simp at h
    · simp only [reserveRevAndSlot] at h
      rcases hm : merge wi.obj obj with e | merged
      · rw [hm] at h
        exact absurd h (by simp)
      · simp only [hm] at h
        rcases hput : mapPut s.kvs key
            { key := key, obj := updateObjectResourceVersion merged (s.memoryRev + 1),
              index := s.kvList.length } wi.obj.rv with e | kvs1
        · rw [hput] at h
          exact absurd h (by simp)
        · rw [hput] at h
          simp only [Except.ok.injEq, Prod.mk.injEq] at h
          rcases h with ⟨hs1, hout, hrev⟩
          subst hs1 hrev
          refine Or.inr (Or.inl ⟨rfl, rfl, wi.index,
            { key := key, obj := updateObjectResourceVersion merged (s.memoryRev + 1),
              index := s.kvList.length }, ?_, rfl⟩)
          exact set_set_snoc s.kvList wi.index none _ none

theorem getOrCreate_step (s : MemoryStore) (key : String) (objToCreate : Obj)
    (s1 : MemoryStore) (out : Obj) (rev : Option Nat)
    (h : getOrCreate s key objToCreate = .ok (s1, out, rev)) : StateStep s s1 rev := by
  unfold getOrCreate at h
  rcases hget : mapGet s.kvs key with _ | wi
  · simp only [hget, reserveRevAndSlot, mapPut, mapGet_cons_self, if_pos,
      Except.ok.injEq, Prod.mk.injEq] at h
    rcases h with ⟨hs1, hout, hrev⟩
    subst hs1 hrev
    refine Or.inr (Or.inl ⟨rfl, rfl, s.kvList.length,
      { key := key, obj := updateObjectResourceVersion objToCreate (s.memoryRev + 1),
        index := s.kvList.length }, ?_, rfl⟩)
    rw [set_snoc_length, set_oob _ _ _ (le_refl _)]
  · simp only [hget, Except.ok.injEq, Prod.mk.injEq] at h
    exact Or.inl ⟨h.1.symm, h.2.2.symm⟩

theorem createOrReplace_step (s : MemoryStore) (key : String) (objToCreate : Obj)
    (s1 : MemoryStore) (out : Obj) (rev : Nat)
    (h : createOrReplace s key objToCreate = .ok (s1, out, rev)) :
    StateStep s s1 (some rev) := by
  unfold createOrReplace at h
  rcases hget : mapGet s.kvs key with _ | wi
  · simp only [hget, reserveRevAndSlot, mapPut, mapGet_cons_self, if_pos,
      Except.ok.injEq, Prod.mk.injEq] at h
    rcases h with ⟨hs1, hout, hrev⟩
    subst hs1 hrev
    refine Or.inr (Or.inl ⟨rfl, rfl, s.kvList.length,
      { key := key, obj := updateObjectResourceVersion objToCreate (s.memoryRev + 1),
        index := s.kvList.length }, ?_, rfl⟩)
    rw [set_snoc_length, set_oob _ _ _ (le_refl _)]
  · simp only [hget, reserveRevAndSlot] at h
    rcases hput : mapPut s.kvs key
        { key := key, obj := updateObjectResourceVersion objToCreate (s.memoryRev + 1),
          index := s.kvList.length } wi.obj.rv with e | kvs1
    · rw [hput] at h
      exact absurd h (by simp)
    · rw [hput] at h
      simp only [Except.ok.injEq, Prod.mk.injEq] at h
      rcases h with ⟨hs1, hout, hrev⟩
      subst hs1 hrev
      refine Or.inr (Or.inl ⟨rfl, rfl, wi.index,
        { key := key, obj := updateObjectResourceVersion objToCreate (s.memoryRev + 1),
          index := s.kvList.length }, ?_, rfl⟩)
      exact set_set_snoc s.kvList wi.index none _ none

/-- One mutating request against the store (the operations the claim
names; GetOrCreate contributes through its create branch only). -/
inductive StoreOp where
  | createOp (key : String) (obj : Obj)
  | delOp (key : String) (pre : Option Precond) (validate : Obj → Except Err Unit)
  | updateOp (key : String) (ignoreNotFound : Bool) (pre : Option Precond)
      (tryUpdate : Obj → Except Err Obj)
  | createOrUpdateOp (key : String) (obj : Obj)
      (mergeFunc : Option (Obj → Obj → Except Err Obj))
  | createOrReplaceOp (key : String) (obj : Obj)
  | getOrCreateOp (key : String) (obj : Obj)

/-- Run one operation, returning the post state and the revision it
assigned (none when it assigned none). -/
def applyOp (s : MemoryStore) : StoreOp → Except Err (MemoryStore × Option Nat)
  | .createOp key obj =>
    (create s key obj).map fun r => (r.1, some r.2.2)
  | .delOp key pre validate =>
    (deleteOp s key pre validate).map fun r => (r.1, some r.2)
  | .updateOp key inf pre tu =>
    (guaranteedUpdate s key inf pre tu).map fun r => (r.1, r.2.2)
  | .createOrUpdateOp key obj mf =>
    (createOrUpdate s key obj mf).map fun r => (r.1, some r.2.2)
  | .createOrReplaceOp key obj =>
    (createOrReplace s key obj).map fun r => (r.1, some r.2.2)
  | .getOrCreateOp key obj =>
    (getOrCreate s key obj).map fun r => (r.1, r.2.2)

/-- Execute a sequence of requests, collecting the assigned revisions of
the successful mutations in execution order (failed requests leave the
state unchanged: every error path of the store returns before mutating). -/
def runOps : MemoryStore → List StoreOp → MemoryStore × List Nat
  | s, [] => (s, [])
  | s, op :: rest =>
    match applyOp s op with
    | .ok (s1, r) =>
      let p := runOps s1 rest
      (p.1, r.toList ++ p.2)
    | .error _ => runOps s rest

theorem applyOp_step (s : MemoryStore) (op : StoreOp) (s1 : MemoryStore) (r : Option Nat)
    (h : applyOp s op = .ok (s1, r)) : StateStep s s1 r := by
  cases op with
  | createOp key obj =>
    simp only [applyOp] at h
    rcases hc : create s key obj with e | ⟨s2, out, rev⟩
    · rw [hc] at h
      exact absurd h (by simp [Except.map])
    · rw [hc] at h
      simp only [Except.map, Except.ok.injEq, Prod.mk.injEq] at h
      rcases h with ⟨hs, hr⟩
      subst hs hr
      exact create_step s key obj s2 out rev hc
  | delOp key pre validate =>
    simp only [applyOp] at h
    rcases hc : deleteOp s key pre validate with e | ⟨s2, rev⟩
    · rw [hc] at h
      exact absurd h (by simp [Except.map])
    · rw [hc] at h
      simp only [Except.map, Except.ok.injEq, Prod.mk.injEq] at h
      rcases h with ⟨hs, hr⟩
      subst hs hr
      exact deleteOp_step s key pre validate s2 rev hc
  | updateOp key inf pre tu =>
    simp only [applyOp] at h
    rcases hc : guaranteedUpdate s key inf pre tu with e | ⟨s2, out, rev⟩
    · rw [hc] at h
      exact absurd h (by simp [Except.map])
    · rw [hc] at h
      simp only [Except.map, Except.ok.injEq, Prod.mk.injEq] at h
      rcases h with ⟨hs, hr⟩
      subst hs hr
      exact guaranteedUpdate_step s key inf pre tu s2 out rev hc
  | createOrUpdateOp key obj mf =>
    simp only [applyOp] at h
    rcases hc : createOrUpdate s key obj mf with e | ⟨s2, out, rev⟩
    · rw [hc] at h
      exact absurd h (by simp [Except.map])
    · rw [hc] at h
      simp only [Except.map, Except.ok.injEq, Prod.mk.injEq] at h
      rcases h with ⟨hs, hr⟩
      subst hs hr
      exact createOrUpdate_step s key obj mf s2 out rev hc
  | createOrReplaceOp key obj =>
    simp only [applyOp] at h
    rcases hc : createOrReplace s key obj with e | ⟨s2, out, rev⟩
    · rw [hc] at h
      exact absurd h (by simp [Except.map])
    · rw [hc] at h
      simp only [Except.map, Except.ok.injEq, Prod.mk.injEq] at h
      rcases h with ⟨hs, hr⟩
      subst hs hr
      exact createOrReplace_step s key obj s2 out rev hc
  | getOrCreateOp key obj =>
    simp only [applyOp] at h
    rcases hc : getOrCreate s key obj with e | ⟨s2, out, rev⟩
    · rw [hc] at h
      exact absurd h (by simp [Except.map])
    · rw [hc] at h
      simp only [Except.map, Except.ok.injEq, Prod.mk.injEq] at h
      rcases h with ⟨hs, hr⟩
      subst hs hr
      exact getOrCreate_step s key obj s2 out rev hc

/-- C4: across every sequence of requests (Create, Delete,
GuaranteedUpdate, CreateOrUpdate, CreateOrReplace, GetOrCreate), starting
from any state satisfying the slot-ordering invariant, the revisions
assigned by the successful mutations are strictly increasing in execution
order (all above the starting counter), and the invariant — non-nil slots
of the revision-ordered list carry strictly increasing revisions in index
order — still holds at the end. -/
theorem mutations_strictly_increasing (s : MemoryStore) (ops : List StoreOp)
    (hInv : Inv s) :
    List.Chain (· < ·) s.memoryRev (runOps s ops).2 ∧ Inv (runOps s ops).1 := by
  induction ops generalizing s with
  | nil => exact ⟨List.Chain.nil, hInv⟩
  | cons op rest ih =>
    unfold runOps
    rcases happ : applyOp s op with e | ⟨s1, r⟩
    · exact ih s hInv
    · have hstep := applyOp_step s op s1 r happ
      have hInv1 := stateStep_inv s s1 r hInv hstep
      rcases ih s1 hInv1 with ⟨hchain, hinv2⟩
      rcases stateStep_rev s s1 r hstep with ⟨hr, heq⟩ | ⟨hr, heq⟩
      · subst hr
        simp only [Option.toList, List.nil_append]
        rw [heq] at hchain
        exact ⟨hchain, hinv2⟩
      · subst hr
        simp only [Option.toList, List.singleton_append]
        rw [heq] at hchain
        exact ⟨List.Chain.cons (by omega) hchain, hinv2⟩

/-- The C4 witness sequence: two creates and a delete from an empty store
with counter 5; the assigned revisions are 6, 7, 8. -/
def c4Ops : List StoreOp :=
  [.createOp "g/ns/a" { rv := 0, payload := 1, deletionTimestampSet := false, finalizersEmpty := true },
   .createOp "g/ns/b" { rv := 0, payload := 2, deletionTimestampSet := false, finalizersEmpty := true },
   .delOp "g/ns/a" none (fun _ => .ok ())]

/-- The C4 witness start state. -/
def c4S0 : MemoryStore := { memoryRev := 5, kvs := [], kvList := [] }

/-- Witness for C4: the concrete run assigns 6, 7, 8 — a strictly
increasing chain above the start counter — and the final state satisfies
the invariant. -/
theorem mutations_strictly_increasing_witness :
    (List.Chain (· < ·) c4S0.memoryRev (runOps c4S0 c4Ops).2 ∧ Inv (runOps c4S0 c4Ops).1) ∧
    (runOps c4S0 c4Ops).2 = [6, 7, 8] :=
  ⟨mutations_strictly_increasing c4S0 c4Ops (by decide), by rfl⟩

/-! ## Heap model: deep copies and aliasing (C3, C10)

Go objects carry references to nested mutable blocks (maps, slices,
pointers).  `DeepCopyObject` allocates fresh blocks; writing a struct
value through reflection (`outVal.Set(reflect.ValueOf(x).Elem())`) copies
the top-level fields only, so the nested block stays shared.  The heap
maps block addresses to their contents; an object is its resource version
plus the address of its nested block. -/

/-- An object with reference semantics: resource version and the address
of its nested mutable block. -/
structure HObj where
  rv : Nat
  nested : Nat
  deriving DecidableEq, Repr

/-- The heap: contents of every nested block, and the next fresh address. -/
structure Heap where
  mem : Nat → Nat
  next : Nat

/-- `DeepCopyObject`: allocate a fresh block, copy the nested contents,
return the copy pointing at the fresh block. -/
def deepCopyObject (h : Heap) (o : HObj) : Heap × HObj :=
  ({ mem := fun a => if a = h.next then h.mem o.nested else h.mem a, next := h.next + 1 },
   { rv := o.rv, nested := h.next })

/-- A mutation a caller performs through an object it holds: write `v`
into the object's nested block. -/
def hwriteNested (h : Heap) (o : HObj) (v : Nat) : Heap :=
  { h with mem := fun a => if a = o.nested then v else h.mem a }

/-- A RevisionList slot in the heap model. -/
structure HEntry where
  key : String
  obj : HObj
  index : Nat
  deriving DecidableEq, Repr

/-- The store state in the heap model. -/
structure HStore where
  memoryRev : Nat
  kvs : List (String × HEntry)
  kvList : List (Option HEntry)

/-- Key-map lookup in the heap model. -/
def hMapGet (kvs : List (String × HEntry)) (key : String) : Option HEntry :=
  match kvs.find? (fun p => p.1 == key) with
  | some p => some p.2
  | none => none

/-- Key-map removal in the heap model. -/
def hMapDel (kvs : List (String × HEntry)) (key : String) : List (String × HEntry) :=
  kvs.filter (fun p => p.1 != key)

/-- The zero value `runtime.SetZeroValue` writes: zero revision, nil
nested reference (address 0). -/
def hZeroObj : HObj := { rv := 0, nested := 0 }

/-- `Get` in the heap model (lines 254–282): on a hit the code deep-copies
the stored object only to read its revision for the minimum-version check
(line 269), then writes the *stored* object's struct value into `out`
(line 279) — a shallow copy sharing the nested block — instead of the deep
copy it just made.  Returns the heap (grown by the unused copy) and the
object value now held by the caller's `out`. -/
def hGet (h : Heap) (s : HStore) (key : String) (opts : GetOptions) :
    Heap × Except Err HObj :=
  match hMapGet s.kvs key with
  | none =>
    if opts.ignoreNotFound then (h, .ok hZeroObj) else (h, .error (.keyNotFound key))
  | some existingObj =>
    let hc := deepCopyObject h existingObj.obj
    match validateMinimumResourceVersion opts.resourceVersion hc.2.rv with
    | .error e => (hc.1, .error e)
    | .ok _ => (hc.1, .ok existingObj.obj)

/-- `Preconditions.Check` against a heap-model object (modelled from the
spec, as for `precondCheck`). -/
def hPrecondCheck (pre : Option Precond) (key : String) (o : HObj) : Except Err Unit :=
  match pre with
  | none => .ok ()
  | some p =>
    match p.resourceVersion with
    | none => .ok ()
    | some v => if o.rv = v then .ok () else .error (.preconditionFailed key)

/-- `Delete` in the heap model (lines 184–251): deep-copy the current
object for the precondition check (line 207), bump the revision, remove
the key and clear the slot; then `out = existingObj.obj.DeepCopyObject()`
(line 237) rebinds only the local parameter — the caller's object is
untouched — and the event's `oldObj` is a further deep copy of that local
(line 242).  Returns the heap, the new store, the object the caller's
`out` still holds, and the event's `oldObj`. -/
def hDelete (h : Heap) (s : HStore) (key : String) (pre : Option Precond)
    (callerOut : HObj) : Heap × Except Err (HStore × HObj × HObj) :=
  match hMapGet s.kvs key with
  | none => (h, .error (.keyNotFound key))
  | some existingObj =>
    let hc := deepCopyObject h existingObj.obj
    match hPrecondCheck pre key hc.2 with
    | .error e => (hc.1, .error e)
    | .ok _ =>
      let rev := s.memoryRev + 1
      let s1 : HStore := { memoryRev := rev, kvs := hMapDel s.kvs key,
                           kvList := s.kvList.set existingObj.index none }
      let hOut := deepCopyObject hc.1 existingObj.obj
      let hOld := deepCopyObject hOut.1 hOut.2
      (hOld.1, .ok (s1, callerOut, hOld.2))

/-- The heap of the C3 scenario: the stored object's nested block is
address 0 and contains 7; the next fresh address is 1. -/
def hH0 : Heap := { mem := fun a => if a = 0 then 7 else 0, next := 1 }

/-- The stored entry of the C3/C10 scenarios. -/
def hE0 : HEntry := { key := "p/a", obj := { rv := 5, nested := 0 }, index := 0 }

/-- The store of the C3/C10 scenarios. -/
def hS0 : HStore := { memoryRev := 5, kvs := [("p/a", hE0)], kvList := [some hE0] }

/-- C3 (the code violates the claim): Get on "p/a" hands the caller an
object whose nested block is the *stored* object's block (address 0, not
a fresh copy): after the caller writes 42 through it, the store's own
object — still pointing at address 0 via the key map and revision list —
observes 42 where it held 7.  The deep copy Get makes at line 269 is
discarded for output (line 279 copies the stored struct), so a caller
mutation is visible inside the store, contradicting "out is a deep copy
of the stored object". -/
theorem get_returns_alias_of_stored :
    ((hGet hH0 hS0 "p/a" { ignoreNotFound := false, resourceVersion := "" }).2 =
      .ok { rv := 5, nested := 0 }) ∧
    ({ rv := 5, nested := 0 } : HObj).nested = hE0.obj.nested ∧
    hH0.mem hE0.obj.nested = 7 ∧
    (hwriteNested (hGet hH0 hS0 "p/a" { ignoreNotFound := false, resourceVersion := "" }).1
        { rv := 5, nested := 0 } 42).mem hE0.obj.nested = 42 := by
  refine ⟨rfl, rfl, rfl, rfl⟩

/-- C10: a successful Delete leaves the caller's `out` object untouched —
the returned out value is exactly the object the caller passed and its
nested block is not written (every write of the Delete path goes to a
fresh address) — while the pre-image travels only in the event's
`oldObj`, a fresh deep copy: same revision and nested contents as the
deleted object, at an address distinct from both the caller's and the
stored object's. -/
theorem delete_leaves_caller_out_unchanged (h : Heap) (s : HStore) (key : String)
    (pre : Option Precond) (callerOut : HObj) (wi : HEntry)
    (hget : hMapGet s.kvs key = some wi)
    (hco : callerOut.nested < h.next) (hwi : wi.obj.nested < h.next)
    (h1 : Heap) (s1 : HStore) (outAfter oldObj : HObj)
    (hdel : hDelete h s key pre callerOut = (h1, .ok (s1, outAfter, oldObj))) :
    outAfter = callerOut ∧
    h1.mem callerOut.nested = h.mem callerOut.nested ∧
    oldObj.rv = wi.obj.rv ∧
    h1.mem oldObj.nested = h.mem wi.obj.nested ∧
    oldObj.nested ≠ callerOut.nested ∧
    oldObj.nested ≠ wi.obj.nested := by
  unfold hDelete at hdel
  rw [hget] at hdel
  simp only [deepCopyObject] at hdel
  rcases hpc : hPrecondCheck pre key { rv := wi.obj.rv, nested := h.next } with e | u
  · rw [hpc] at hdel
    simp at hdel
  · rw [hpc] at hdel
    simp only [Prod.mk.injEq, Except.ok.injEq] at hdel
    rcases hdel with ⟨hh1, hs1, hout, hold⟩
    subst hh1 hout hold
    have e1 : callerOut.nested ≠ h.next := by omega
    have e2 : callerOut.nested ≠ h.next + 1 := by omega
    have e3 : callerOut.nested ≠ h.next + 1 + 1 := by omega
    have e4 : wi.obj.nested ≠ h.next := by omega
    refine ⟨rfl, ?_, rfl, ?_, ?_, ?_⟩
    · show (if callerOut.nested = h.next + 1 + 1 then _ else _) = h.mem callerOut.nested
      rw [if_neg e3, if_neg e2, if_neg e1]
    · show (if h.next + 1 + 1 = h.next + 1 + 1 then _ else _) = h.mem wi.obj.nested
      rw [if_pos rfl]
      simp
    · show h.next + 1 + 1 ≠ callerOut.nested
      omega
    · show h.next + 1 + 1 ≠ wi.obj.nested
      omega

/-- The witness heap for C10: stored block at address 0 (contents 7),
caller block at address 1 (contents 9), next fresh address 2. -/
def hH2 : Heap := { mem := fun a => if a = 0 then 7 else if a = 1 then 9 else 0, next := 2 }

/-- Witness for C10 at the concrete deletion of "p/a": the caller's object
(nested address 1) comes back identical, its block still holds what it
held, and the event's `oldObj` (a fresh copy at address 4) carries the
pre-image revision and contents at a non-aliased address. -/
theorem delete_leaves_caller_out_unchanged_witness :
    ({ rv := 9, nested := 1 } : HObj) = { rv := 9, nested := 1 } ∧
    (hDelete hH2 hS0 "p/a" none { rv := 9, nested := 1 }).1.mem
        ({ rv := 9, nested := 1 } : HObj).nested =
      hH2.mem ({ rv := 9, nested := 1 } : HObj).nested ∧
    ({ rv := 5, nested := 4 } : HObj).rv = hE0.obj.rv ∧
    (hDelete hH2 hS0 "p/a" none { rv := 9, nested := 1 }).1.mem
        ({ rv := 5, nested := 4 } : HObj).nested =
      hH2.mem hE0.obj.nested ∧
    ({ rv := 5, nested := 4 } : HObj).nested ≠ ({ rv := 9, nested := 1 } : HObj).nested ∧
    ({ rv := 5, nested := 4 } : HObj).nested ≠ hE0.obj.nested := by
  exact delete_leaves_caller_out_unchanged hH2 hS0 "p/a" none { rv := 9, nested := 1 } hE0
    rfl (by decide) (by decide)
    (hDelete hH2 hS0 "p/a" none { rv := 9, nested := 1 }).1
    { memoryRev := 6, kvs := [], kvList := [none] }
    { rv := 9, nested := 1 } { rv := 5, nested := 4 } rfl

end FornaxStore
